import Mathlib

/-!
Verification of the confman configuration library against its design
specification. The Python sources under `confman/` are shallowly embedded:
pure functions become Lean functions, the in-place dictionary operations of
the CPython runtime become explicit heap passing where aliasing matters, and
fallible operations return `Except`/`Option`.

Conventions of the embedding:

* A Python configuration value is a `Value`: string, integer, float,
  boolean, `None`, list or dict. Python dicts are embedded as association
  lists with the insertion order of the dict; a dict built by the runtime
  never holds a duplicate key, which appears below as `NodupKeys`
  hypotheses. Python floating point numbers are represented by their
  source literal (a `String`); IEEE-754 arithmetic itself is not modelled,
  and no claim below compares two distinct literals denoting the same
  double.
* String helpers (`strip`, `int`, `float`) follow the CPython semantics on
  ASCII input: `strip` removes the six ASCII whitespace characters,
  `int`/`float` accept surrounding whitespace, an optional sign and
  underscores between digits.
-/

set_option linter.unusedVariables false
set_option linter.unreachableTactic false
set_option linter.unnecessarySeqFocus false
set_option linter.unusedTactic false

namespace Confman

/-- Embedded Python value: the leaves and nodes a configuration tree can
hold. Dicts are association lists in insertion order; floats carry their
literal. -/
inductive Value where
  | str : String → Value
  | int : Int → Value
  | float : String → Value
  | bool : Bool → Value
  | null : Value
  | list : List Value → Value
  | map : List (String × Value) → Value
deriving Repr

/-- Association list of one Python dict level. -/
abbrev Entries := List (String × Value)

/-- Python `d[k]` / `k in d`: first (and, for a real dict, only) binding of
`k`. -/
def lookup : Entries → String → Option Value
  | [], _ => none
  | (k', v) :: rest, k => if k' = k then some v else lookup rest k

/-- Python `d[k] = v` on a dict that may or may not contain `k`: replace in
place keeping the position, append otherwise. -/
def setKey : Entries → String → Value → Entries
  | [], k, v => [(k, v)]
  | (k', v') :: rest, k, v =>
      if k' = k then (k, v) :: rest else (k', v') :: setKey rest k v

/-- `isinstance(v, Mapping)` for embedded values. -/
def Value.isMap : Value → Bool
  | .map _ => true
  | _ => false

/-- The keys of one dict level, in order. -/
def keysOf (l : Entries) : List String := l.map Prod.fst

/-- A dict produced by the Python runtime has pairwise-distinct keys. -/
abbrev NodupKeys (l : Entries) : Prop := (keysOf l).Nodup

mutual

/-- Embedding of `confman.utils.deep_merge` restricted to the dict
payloads (the Python function is only ever applied to two mappings):
start from a copy of `base` and fold the items of `override` into it. -/
def deep_merge (base override : Entries) : Entries :=
  mergeItems base override
termination_by sizeOf override * 2 + 1
decreasing_by all_goals simp_wf <;> omega

/-- The `for key, value in override.items()` loop of `deep_merge`. -/
def mergeItems (res : Entries) : Entries → Entries
  | [] => res
  | (k, v) :: rest => mergeItems (mergeStep res k v) rest
termination_by l => sizeOf l * 2
decreasing_by all_goals simp_wf <;> omega

/-- One iteration of the `deep_merge` loop: recursive merge when the key is
present in the result and both values are mappings, verbatim replacement
otherwise. -/
def mergeStep (res : Entries) (k : String) (v : Value) : Entries :=
  match lookup res k, v with
  | some (.map m), .map om => setKey res k (.map (deep_merge m om))
  | some _, _ => setKey res k v
  | none, _ => res ++ [(k, v)]
termination_by sizeOf v * 2
decreasing_by all_goals simp_wf <;> omega

end

/-! ### CPython string helpers (ASCII fragment)

`str.strip`, `str.lower`, `int(str)` and `float(str)` as used by
`_parse_env_like_value` and the INI codec. -/

/-- The six ASCII characters removed by Python `str.strip()`. -/
def isPyWs (c : Char) : Bool :=
  c = ' ' || c = '\t' || c = '\n' || c = '\r' || c = '\x0b' || c = '\x0c'

/-- Python `s.strip()` on ASCII input. -/
def pyStrip (s : String) : String :=
  ⟨((s.data.dropWhile isPyWs).reverse.dropWhile isPyWs).reverse⟩

/-- Python `s.lower()` on ASCII input. -/
def pyLower (s : String) : String := ⟨s.data.map Char.toLower⟩

/-- Continuation of a Python `digitpart`: digits with single underscores
allowed between digits (`1_000`), never leading, trailing or doubled. -/
def digitsCore : List Char → Bool
  | [] => true
  | '_' :: c :: rest => c.isDigit && digitsCore rest
  | ['_'] => false
  | c :: rest => c.isDigit && digitsCore rest

/-- Python `digitpart`: nonempty digits with optional grouping
underscores. -/
def isDigitPart : List Char → Bool
  | [] => false
  | c :: rest => c.isDigit && digitsCore rest

/-- Numeric value of a digit part, skipping grouping underscores. -/
def digitsVal (cs : List Char) : Nat :=
  cs.foldl (fun acc c => if c = '_' then acc else acc * 10 + (c.toNat - '0'.toNat)) 0

/-- Python `int(s)` for a string argument (base 10): surrounding
whitespace stripped, optional sign, digit part. `none` is `ValueError`. -/
def pyIntParse (s : String) : Option Int :=
  match (pyStrip s).data with
  | '+' :: rest => if isDigitPart rest then some (digitsVal rest) else none
  | '-' :: rest => if isDigitPart rest then some (-(digitsVal rest : Int)) else none
  | cs => if isDigitPart cs then some (digitsVal cs) else none

/-- Split a character list at the first occurrence of `e`/`E`. -/
def splitExp : List Char → Option (List Char × List Char)
  | [] => none
  | c :: rest =>
      if c = 'e' || c = 'E' then some ([], rest)
      else (splitExp rest).map (fun p => (c :: p.1, p.2))

/-- Split a character list at the first `.`. -/
def splitDot : List Char → Option (List Char × List Char)
  | [] => none
  | c :: rest =>
      if c = '.' then some ([], rest)
      else (splitDot rest).map (fun p => (c :: p.1, p.2))

/-- Mantissa of a Python float literal: `digitpart`, `digitpart '.'
[digitpart]` or `'.' digitpart`. -/
def mantissaBody (cs : List Char) : Bool :=
  match splitDot cs with
  | none => isDigitPart cs
  | some (l, r) =>
      if r.contains '.' then false
      else
        match l, r with
        | [], [] => false
        | [], r => isDigitPart r
        | l, [] => isDigitPart l
        | l, r => isDigitPart l && isDigitPart r

/-- Exponent of a Python float literal: optional sign then digit part. -/
def expBody : List Char → Bool
  | '+' :: rest => isDigitPart rest
  | '-' :: rest => isDigitPart rest
  | cs => isDigitPart cs

/-- Unsigned body of a Python float literal: the named specials or a
number with optional exponent. -/
def floatBody (cs : List Char) : Bool :=
  let low := cs.map Char.toLower
  if low = "inf".data || low = "infinity".data || low = "nan".data then true
  else
    match splitExp cs with
    | none => mantissaBody cs
    | some (m, e) => mantissaBody m && expBody e

/-- Whether Python `float(s)` succeeds on `s` (ASCII fragment). -/
def pyFloatCheck (s : String) : Bool :=
  match (pyStrip s).data with
  | '+' :: rest => floatBody rest
  | '-' :: rest => floatBody rest
  | cs => floatBody cs

/-- Embedding of `confman.sources._parse_env_like_value`: booleans from a
trimmed, lower-cased comparison, then `int(raw)`, then `float(raw)`, the
raw string otherwise. A successful float parse is represented by the
stripped literal. -/
def parse_env_like_value (raw : String) : Value :=
  let lowered := pyLower (pyStrip raw)
  if lowered = "true" || lowered = "yes" || lowered = "on" then .bool true
  else if lowered = "false" || lowered = "no" || lowered = "off" then .bool false
  else
    match pyIntParse raw with
    | some n => .int n
    | none => if pyFloatCheck raw then .float (pyStrip raw) else .str raw


/-! ### Lookup lemmas for `deep_merge` -/

theorem lookup_setKey_self (l : Entries) (k : String) (v : Value) :
    lookup (setKey l k v) k = some v := by
  induction l with
  | nil => simp [setKey, lookup]
  | cons hd tl ih =>
      obtain ⟨k', v'⟩ := hd
      by_cases h : k' = k
      · simp [setKey, h, lookup]
      · simp [setKey, h, lookup, ih]

theorem lookup_setKey_other (l : Entries) (k : String) (v : Value) (k' : String)
    (h : k' ≠ k) : lookup (setKey l k v) k' = lookup l k' := by
  have h' : k ≠ k' := Ne.symm h
  induction l with
  | nil => simp [setKey, lookup, h']
  | cons hd tl ih =>
      obtain ⟨k₀, v₀⟩ := hd
      by_cases h0 : k₀ = k
      · subst h0
        simp [setKey, lookup, h']
      · simp [setKey, h0, lookup, ih]

theorem lookup_append_left (l1 l2 : Entries) (k : String) (v : Value)
    (h : lookup l1 k = some v) : lookup (l1 ++ l2) k = some v := by
  induction l1 with
  | nil => simp [lookup] at h
  | cons hd tl ih =>
      obtain ⟨k₀, v₀⟩ := hd
      by_cases h0 : k₀ = k
      · simp [lookup, h0] at h ⊢; exact h
      · simp [lookup, h0] at h ⊢; exact ih h

theorem lookup_append_right (l1 l2 : Entries) (k : String)
    (h : lookup l1 k = none) : lookup (l1 ++ l2) k = lookup l2 k := by
  induction l1 with
  | nil => simp [lookup]
  | cons hd tl ih =>
      obtain ⟨k₀, v₀⟩ := hd
      by_cases h0 : k₀ = k
      · simp [lookup, h0] at h
      · simp [lookup, h0] at h ⊢; exact ih h

/-- The claim's per-key description of one merged binding: both mappings
recurse, otherwise the override side wins, a one-sided key is kept. -/
def mergeSpec : Option Value → Option Value → Option Value
  | some (.map a), some (.map b) => some (.map (deep_merge a b))
  | _, some vb => some vb
  | va, none => va

theorem mergeSpec_none_right (x : Option Value) : mergeSpec x none = x := by
  cases x with
  | none => rfl
  | some v => cases v <;> rfl

theorem lookup_mergeStep_self (res : Entries) (k : String) (v : Value) :
    lookup (mergeStep res k v) k = mergeSpec (lookup res k) (some v) := by
  rcases h : lookup res k with _ | va
  · rw [mergeStep.eq_def]
    simp only [h]
    rw [lookup_append_right _ _ _ h]
    cases v <;> simp [lookup, mergeSpec]
  · rw [mergeStep.eq_def]
    simp only [h]
    cases va <;> cases v <;>
      simp [mergeSpec, lookup_setKey_self]

theorem lookup_mergeStep_other (res : Entries) (k : String) (v : Value)
    (k' : String) (h : k' ≠ k) :
    lookup (mergeStep res k v) k' = lookup res k' := by
  have h' : k ≠ k' := Ne.symm h
  rcases hres : lookup res k with _ | va
  · rw [mergeStep.eq_def]
    simp only [hres]
    rcases hk' : lookup res k' with _ | w
    · cases v <;>
        · rw [lookup_append_right _ _ _ hk']
          simp [lookup, h']
    · cases v <;> rw [lookup_append_left _ _ _ _ hk']
  · rw [mergeStep.eq_def]
    simp only [hres]
    cases va <;> cases v <;> simp [lookup_setKey_other _ _ _ _ h]

theorem lookup_not_mem (l : Entries) (k : String) (h : k ∉ keysOf l) :
    lookup l k = none := by
  induction l with
  | nil => simp [lookup]
  | cons hd tl ih =>
      obtain ⟨k₀, v₀⟩ := hd
      have h0 : k₀ ≠ k := by
        intro hh; exact h (by simp [keysOf, hh])
      have htl : k ∉ keysOf tl := by
        intro hh; exact h (by simp [keysOf] at hh ⊢; right; exact hh)
      simp [lookup, h0, ih htl]

/-- Per-key characterisation of the `deep_merge` loop: for an override
dict with distinct keys, each key of the result is described by
`mergeSpec` applied to the two lookups. -/
theorem lookup_mergeItems (l : Entries) : ∀ (res : Entries), NodupKeys l →
    ∀ k, lookup (mergeItems res l) k = mergeSpec (lookup res k) (lookup l k) := by
  induction l with
  | nil =>
      intro res _ k
      rw [mergeItems.eq_def]
      cases h : lookup res k <;> simp [lookup, mergeSpec, h]
  | cons hd tl ih =>
      intro res hnd k
      obtain ⟨k₁, v₁⟩ := hd
      have hnd0 : (k₁ :: keysOf tl).Nodup := hnd
      have hk₁ : k₁ ∉ keysOf tl := (List.nodup_cons.mp hnd0).1
      have hnd' : NodupKeys tl := (List.nodup_cons.mp hnd0).2
      rw [mergeItems.eq_def]
      simp only []
      by_cases hk : k = k₁
      · subst hk
        rw [ih _ hnd', lookup_not_mem _ _ hk₁, lookup_mergeStep_self,
          mergeSpec_none_right]
        simp [lookup]
      · have hk' : k₁ ≠ k := fun hh => hk hh.symm
        rw [ih _ hnd', lookup_mergeStep_other _ _ _ _ hk]
        simp [lookup, hk']

theorem lookup_deep_merge (A B : Entries) (h : NodupKeys B) (k : String) :
    lookup (deep_merge A B) k = mergeSpec (lookup A k) (lookup B k) := by
  rw [deep_merge]
  exact lookup_mergeItems B A h k

/-- Claim C3: `deep_merge` is a pure function of its two dict arguments
(the Python function writes only into the fresh `dict(base)` copy, which
the functional embedding renders as simple value passing); a key present
in only one input keeps its value, a key present in both takes the
override's value unless both values are mappings, in which case the two
are merged recursively. -/
theorem C3_deep_merge_functional (A B : Entries) (hB : NodupKeys B) :
    (∀ k v, lookup A k = some v → lookup B k = none →
        lookup (deep_merge A B) k = some v) ∧
    (∀ k v, lookup A k = none → lookup B k = some v →
        lookup (deep_merge A B) k = some v) ∧
    (∀ k va vb, lookup A k = some va → lookup B k = some vb →
        ¬(va.isMap = true ∧ vb.isMap = true) →
        lookup (deep_merge A B) k = some vb) ∧
    (∀ k ma mb, lookup A k = some (.map ma) → lookup B k = some (.map mb) →
        lookup (deep_merge A B) k = some (.map (deep_merge ma mb))) := by
  refine ⟨?_, ?_, ?_, ?_⟩
  · intro k v hA hB'
    rw [lookup_deep_merge A B hB k, hA, hB', mergeSpec_none_right]
  · intro k v hA hB'
    rw [lookup_deep_merge A B hB k, hA, hB']
    rfl
  · intro k va vb hA hB' hnot
    rw [lookup_deep_merge A B hB k, hA, hB']
    cases va <;> cases vb <;>
      first
        | rfl
        | exact absurd ⟨rfl, rfl⟩ hnot
  · intro k ma mb hA hB'
    rw [lookup_deep_merge A B hB k, hA, hB']
    rfl

/-- Witness for C3 at concrete dicts. -/
theorem C3_deep_merge_functional_witness :
    lookup (deep_merge
        [("a", Value.int 1), ("n", Value.map [("x", Value.int 1), ("y", Value.int 2)])]
        [("b", Value.int 2), ("n", Value.map [("y", Value.int 42)])]) "a"
      = some (Value.int 1) ∧
    lookup (deep_merge
        [("a", Value.int 1), ("n", Value.map [("x", Value.int 1), ("y", Value.int 2)])]
        [("b", Value.int 2), ("n", Value.map [("y", Value.int 42)])]) "b"
      = some (Value.int 2) ∧
    lookup (deep_merge
        [("a", Value.int 1), ("n", Value.map [("x", Value.int 1), ("y", Value.int 2)])]
        [("b", Value.int 2), ("n", Value.map [("y", Value.int 42)])]) "n"
      = some (Value.map (deep_merge
          [("x", Value.int 1), ("y", Value.int 2)] [("y", Value.int 42)])) := by
  have hB : NodupKeys [("b", Value.int 2), ("n", Value.map [("y", Value.int 42)])] := by
    decide
  have h := C3_deep_merge_functional
    [("a", Value.int 1), ("n", Value.map [("x", Value.int 1), ("y", Value.int 2)])]
    [("b", Value.int 2), ("n", Value.map [("y", Value.int 42)])] hB
  exact ⟨h.1 "a" (Value.int 1) rfl rfl,
         h.2.1 "b" (Value.int 2) rfl rfl,
         h.2.2.2 "n" _ _ rfl rfl⟩

/-! ### ConfigManager.load -/

/-- What one registered source hands to `ConfigManager.load`: `none` is
Python `None` (ABSENT), `some v` an arbitrary returned value. -/
abbrev SourceResult := Option Value

/-- The `for source in self._sources` loop of `ConfigManager.load`,
tracking the position of the current source so the error can name the
offending one: skip `None`, fail on a non-mapping without touching the
remaining sources, deep-merge mapping results into the accumulator. -/
def managerFold (acc : Entries) (i : Nat) : List SourceResult → Except Nat Entries
  | [] => .ok acc
  | none :: rest => managerFold acc (i + 1) rest
  | some v :: rest =>
      match v with
      | .map m => managerFold (deep_merge acc m) (i + 1) rest
      | _ => .error i

/-- Embedding of `ConfigManager.load` without a schema
(`validate_config(merged, None)` returns immediately): fold all source
results in registration order starting from the empty dict. An error
carries the position of the source it names. -/
def ConfigManager_load (results : List SourceResult) : Except Nat Entries :=
  managerFold [] 0 results

/-- A source result the fold accepts: absent, or a mapping. -/
def okResult : SourceResult → Prop
  | none => True
  | some v => v.isMap = true

theorem managerFold_error (pre : List SourceResult) :
    ∀ (acc : Entries) (i : Nat) (v : Value) (rest : List SourceResult),
    (∀ r ∈ pre, okResult r) → v.isMap = false →
    managerFold acc i (pre ++ some v :: rest) = .error (i + pre.length) := by
  induction pre with
  | nil =>
      intro acc i v rest _ hv
      cases v <;> simp [Value.isMap] at hv ⊢ <;> simp [managerFold]
  | cons r pre' ih =>
      intro acc i v rest hok hv
      have hr : okResult r := hok r (by simp)
      have hok' : ∀ x ∈ pre', okResult x := fun x hx => hok x (by simp [hx])
      cases r with
      | none =>
          rw [List.cons_append]
          rw [show managerFold acc i (none :: (pre' ++ some v :: rest)) =
            managerFold acc (i + 1) (pre' ++ some v :: rest) from rfl]
          rw [ih acc (i + 1) v rest hok' hv]
          congr 1
          simp [List.length_cons]
          omega
      | some w =>
          cases w <;> simp [okResult, Value.isMap] at hr
          rw [List.cons_append]
          rw [show managerFold acc i
              (some (Value.map _) :: (pre' ++ some v :: rest)) =
            managerFold (deep_merge acc _) (i + 1) (pre' ++ some v :: rest)
            from rfl]
          rw [ih _ (i + 1) v rest hok' hv]
          congr 1
          simp [List.length_cons]
          omega

/-- The result of the fold does not depend on the running index except
through the name carried by an error. -/
theorem managerFold_index_erase (l : List SourceResult) :
    ∀ (acc : Entries) (i i' : Nat),
    (managerFold acc i l).mapError (fun _ => ()) =
      (managerFold acc i' l).mapError (fun _ => ()) := by
  induction l with
  | nil => intro acc i i'; rfl
  | cons r rest ih =>
      intro acc i i'
      cases r with
      | none => simpa [managerFold] using ih acc (i + 1) (i' + 1)
      | some w =>
          cases w <;> simp [managerFold, Except.mapError]
          exact ih _ (i + 1) (i' + 1)

theorem managerFold_all_maps (ms : List Entries) :
    ∀ (acc : Entries) (i : Nat),
    managerFold acc i (ms.map (fun m => some (.map m))) =
      .ok (ms.foldl deep_merge acc) := by
  induction ms with
  | nil => intro acc i; rfl
  | cons m rest ih => intro acc i; simpa [managerFold] using ih (deep_merge acc m) (i + 1)

/-- Claim C7: `ConfigManager.load` folds the source results in
registration order from an empty accumulator: every `None` is skipped
(the outcome is unchanged up to the position an error names), the first
non-mapping result aborts the fold with an error naming that source's
position, independent of all later sources, and mapping results are
deep-merged so that, per key, a later source wins unless both sides are
mappings, which merge recursively. -/
theorem C7_manager_fold (pre rest : List SourceResult) (v : Value)
    (l1 l2 : List SourceResult) (ms : List Entries) (acc m : Entries)
    (hok : ∀ r ∈ pre, okResult r) (hv : v.isMap = false) (hm : NodupKeys m) :
    ConfigManager_load (pre ++ some v :: rest) = .error pre.length ∧
    (∀ rest', ConfigManager_load (pre ++ some v :: rest) =
      ConfigManager_load (pre ++ some v :: rest')) ∧
    (ConfigManager_load (l1 ++ none :: l2)).mapError (fun _ => ()) =
      (ConfigManager_load (l1 ++ l2)).mapError (fun _ => ()) ∧
    ConfigManager_load (ms.map (fun m => some (.map m))) =
      .ok (ms.foldl deep_merge []) ∧
    (∀ k, lookup (deep_merge acc m) k = mergeSpec (lookup acc k) (lookup m k)) := by
  refine ⟨?_, ?_, ?_, ?_, ?_⟩
  · simpa [ConfigManager_load] using managerFold_error pre [] 0 v rest hok hv
  · intro rest'
    have h1 := managerFold_error pre [] 0 v rest hok hv
    have h2 := managerFold_error pre [] 0 v rest' hok hv
    simp [ConfigManager_load, h1, h2]
  · -- skipping an absent source: walk the common prefix l1
    suffices h : ∀ (l1 : List SourceResult) (acc : Entries) (i i' : Nat),
        (managerFold acc i (l1 ++ none :: l2)).mapError (fun _ => ()) =
          (managerFold acc i' (l1 ++ l2)).mapError (fun _ => ()) by
      exact h l1 [] 0 0
    intro l1
    induction l1 with
    | nil =>
        intro acc i i'
        simpa [managerFold] using managerFold_index_erase l2 acc (i + 1) i'
    | cons r restl ih =>
        intro acc i i'
        cases r with
        | none => simpa [managerFold] using ih acc (i + 1) (i' + 1)
        | some w =>
            cases w <;> simp [managerFold, Except.mapError]
            exact ih _ (i + 1) (i' + 1)
  · exact managerFold_all_maps ms [] 0
  · intro k
    exact lookup_deep_merge acc m hm k

/-- Witness for C7: a concrete run with an absent source, a mapping
source, a non-mapping source at position 2 and one more source after it,
plus the specification's ordering example. -/
theorem C7_manager_fold_witness :
    ConfigManager_load
        [none, some (.map [("a", Value.int 1)]), some (Value.int 42),
         some (.map [("b", Value.int 2)])] = .error 2 ∧
    ConfigManager_load
        [some (.map [("app", Value.map [("debug", Value.bool false),
            ("log_level", Value.str "INFO")])]),
         some (.map [("app", Value.map [("log_level", Value.str "DEBUG")])])] =
      .ok [("app", Value.map [("debug", Value.bool false),
            ("log_level", Value.str "DEBUG")])] := by
  have h := C7_manager_fold
    [none, some (.map [("a", Value.int 1)])] [some (.map [("b", Value.int 2)])]
    (Value.int 42) [] [] [] [] []
    (by
      intro r hr
      simp only [List.mem_cons, List.not_mem_nil, or_false] at hr
      rcases hr with rfl | rfl <;> simp [okResult, Value.isMap])
    rfl (by decide)
  refine ⟨h.1, ?_⟩
  simp [ConfigManager_load, managerFold, deep_merge, mergeItems, mergeStep,
    lookup, setKey]

/-! ### EnvSource -/

/-- The nested single-path dict one environment variable contributes: the
`for part in parts[:-1]` loop of `EnvSource.load` chains fresh dicts and
stores the parsed value under the last segment (`nested` starts empty, so
the `current.get(part)` branch always allocates a fresh child). -/
def buildNested : List String → Value → Entries
  | [], _ => []
  | [p], v => [(p, v)]
  | p :: rest, v => [(p, .map (buildNested rest v))]

/-- Python `key.startswith(p)` (exact-case). -/
def pyStartsWith (s p : String) : Bool := p.data.isPrefixOf s.data

/-- Python `s.split("__")`: non-overlapping, left to right, keeping empty
segments. -/
def splitUU : List Char → List (List Char)
  | [] => [[]]
  | '_' :: '_' :: rest => [] :: splitUU rest
  | c :: rest =>
      match splitUU rest with
      | [] => [[c]]
      | g :: gs => (c :: g) :: gs

/-- The body of the `for key, value in os.environ.items()` loop of
`EnvSource.load`, acting on the running `result` dict. -/
def envStep (pfx : String) (result : Entries) (kv : String × String) : Entries :=
  if pyStartsWith kv.1 pfx then
    let raw_key : String := ⟨kv.1.data.drop pfx.data.length⟩
    if raw_key = "" then result
    else
      let parts := (((splitUU raw_key.data).map (fun cs => (⟨cs⟩ : String))).filter
        (fun p => p ≠ "")).map pyLower
      match parts with
      | [] => result
      | _ => deep_merge result (buildNested parts (parse_env_like_value kv.2))
  else result

/-- Embedding of `EnvSource.load`: the environment is the list of
name/value pairs in the iteration order of `os.environ`; the final
`return result or None` maps an empty dict to `None`. -/
def EnvSource_load (pfx : String) (env : List (String × String)) : Option Entries :=
  let result := env.foldl (envStep pfx) []
  if result.isEmpty then none else some result

/-- Claim C5: on an environment holding exactly `PREFIX_DB__HOST`,
`PREFIX_DB__PORT`, `PREFIX_APP__DEBUG` and `OTHER_X`, loading with
prefix `PREFIX_` yields the nested dict with `port` coerced to an
integer and `debug` to a boolean; the unprefixed `OTHER_X` contributes
nothing (dropping it gives the same result), and segment names are the
prefix-stripped name split on `__`, lower-cased. -/
theorem C5_env_example :
    EnvSource_load "PREFIX_"
        [("PREFIX_DB__HOST", "localhost"), ("PREFIX_DB__PORT", "5432"),
         ("PREFIX_APP__DEBUG", "true"), ("OTHER_X", "1")] =
      some [("db", .map [("host", .str "localhost"), ("port", .int 5432)]),
            ("app", .map [("debug", .bool true)])] ∧
    EnvSource_load "PREFIX_"
        [("PREFIX_DB__HOST", "localhost"), ("PREFIX_DB__PORT", "5432"),
         ("PREFIX_APP__DEBUG", "true")] =
      EnvSource_load "PREFIX_"
        [("PREFIX_DB__HOST", "localhost"), ("PREFIX_DB__PORT", "5432"),
         ("PREFIX_APP__DEBUG", "true"), ("OTHER_X", "1")] := by
  constructor <;>
    simp [EnvSource_load, envStep, buildNested, deep_merge, mergeItems, mergeStep,
      lookup, setKey, pyStartsWith, splitUU, parse_env_like_value, pyIntParse,
      pyStrip, pyLower, isPyWs, digitsCore, isDigitPart, digitsVal, pyFloatCheck,
      floatBody, mantissaBody, splitExp, splitDot, expBody]

/-- Claim C10: `EnvSource.load` never returns an empty mapping — for every
environment the result is `None` or a dict with at least one key
(`return result or None` turns the empty dict into `None`); and
concretely, a variable named exactly like the prefix or whose remainder
is delimiter underscores only is skipped, so an environment with only
such variables loads as `None`. -/
theorem C10_env_load_never_empty :
    (∀ (pfx : String) (env : List (String × String)),
      EnvSource_load pfx env = none ∨
      ∃ m, EnvSource_load pfx env = some m ∧ m ≠ []) ∧
    EnvSource_load "PREFIX_" [("PREFIX_", "x"), ("PREFIX___", "y"), ("OTHER", "1")]
      = none := by
  constructor
  · intro pfx env
    unfold EnvSource_load
    cases h : (env.foldl (envStep pfx) []).isEmpty
    · right
      refine ⟨env.foldl (envStep pfx) [], by simp [h], ?_⟩
      intro hnil
      rw [hnil] at h
      simp [List.isEmpty] at h
    · left
      simp [h]
  · simp [EnvSource_load, envStep, pyStartsWith, splitUU, pyLower]

/-! ### Facts about the numeric string helpers -/

theorem digitsCore_all (cs : List Char) (h : digitsCore cs = true) :
    ∀ c ∈ cs, c.isDigit = true ∨ c = '_' := by
  induction cs using digitsCore.induct with
  | case1 => intro c hc; simp at hc
  | case2 c rest ih =>
      intro x hx
      simp [digitsCore] at h
      simp only [List.mem_cons] at hx
      rcases hx with rfl | rfl | hx
      · right; rfl
      · left; exact h.1
      · exact ih h.2 x hx
  | case3 => simp [digitsCore] at h
  | case4 c rest h1 h2 ih =>
      intro x hx
      rw [digitsCore] at h
      · simp at h
        simp only [List.mem_cons] at hx
        rcases hx with rfl | hx
        · left; exact h.1
        · exact ih h.2 x hx
      · exact h1
      · exact h2

theorem digitsCore_of_digits (cs : List Char)
    (h : ∀ c ∈ cs, c.isDigit = true) : digitsCore cs = true := by
  induction cs using digitsCore.induct with
  | case1 => rfl
  | case2 c rest ih =>
      have : ('_' : Char).isDigit = true := h '_' (by simp)
      simp at this
  | case3 =>
      have : ('_' : Char).isDigit = true := h '_' (by simp)
      simp at this
  | case4 c rest h1 h2 ih =>
      rw [digitsCore]
      · simp only [Bool.and_eq_true]
        exact ⟨h c (by simp), ih (fun x hx => h x (by simp [hx]))⟩
      · exact h1
      · exact h2

theorem isDigitPart_all (cs : List Char) (h : isDigitPart cs = true) :
    ∀ c ∈ cs, c.isDigit = true ∨ c = '_' := by
  cases cs with
  | nil => intro c hc; simp at hc
  | cons c rest =>
      intro x hx
      simp [isDigitPart] at h
      simp only [List.mem_cons] at hx
      rcases hx with rfl | hx
      · left; exact h.1
      · exact digitsCore_all rest h.2 x hx

theorem isDigitPart_of_digits (cs : List Char) (hne : cs ≠ [])
    (h : ∀ c ∈ cs, c.isDigit = true) : isDigitPart cs = true := by
  cases cs with
  | nil => exact absurd rfl hne
  | cons c rest =>
      simp only [isDigitPart, Bool.and_eq_true]
      exact ⟨h c (by simp), digitsCore_of_digits rest (fun x hx => h x (by simp [hx]))⟩

theorem pyStrip_of_no_ws (l : List Char) (h : ∀ c ∈ l, isPyWs c = false) :
    pyStrip ⟨l⟩ = ⟨l⟩ := by
  have h1 : l.dropWhile isPyWs = l := by
    cases l with
    | nil => rfl
    | cons c rest => simp [List.dropWhile, h c (by simp)]
  have h2 : l.reverse.dropWhile isPyWs = l.reverse := by
    cases hr : l.reverse with
    | nil => rfl
    | cons c rest =>
        have hc : c ∈ l := by
          rw [← List.mem_reverse, hr]; simp
        simp [List.dropWhile, h c hc]
  simp [pyStrip, h1, h2]

/-- Python's digit character for one decimal digit. -/
def digitChar : Nat → Char
  | 0 => '0' | 1 => '1' | 2 => '2' | 3 => '3' | 4 => '4'
  | 5 => '5' | 6 => '6' | 7 => '7' | 8 => '8' | _ => '9'

theorem digitChar_isDigit (d : Nat) : (digitChar d).isDigit = true := by
  unfold digitChar
  split <;> decide

theorem digitChar_val (d : Nat) (h : d < 10) :
    (digitChar d).toNat - '0'.toNat = d := by
  interval_cases d <;> decide

theorem digitChar_ne_us (d : Nat) : digitChar d ≠ '_' := by
  unfold digitChar
  split <;> decide

/-- Decimal digit string of a natural number, most significant first
(the digits of Python `str(n)` for `n ≥ 0`). -/
def natDigits (n : Nat) : List Char :=
  if h : n < 10 then [digitChar n]
  else natDigits (n / 10) ++ [digitChar (n % 10)]
decreasing_by exact Nat.div_lt_self (by omega) (by omega)

/-- Python `str(n)` for an integer. -/
def pyIntStr (n : Int) : String :=
  if n < 0 then ⟨'-' :: natDigits (-n).toNat⟩ else ⟨natDigits n.toNat⟩

/-- Python `str(v)` for the values the INI serializer stringifies
(scalars only in practice; the non-scalar rows are never reached because
`_ensure_scalar` raises first). -/
def pyStr : Value → String
  | .str s => s
  | .int n => pyIntStr n
  | .bool true => "True"
  | .bool false => "False"
  | .float f => f
  | .null => "None"
  | .list _ => ""
  | .map _ => ""

theorem natDigits_digits (n : Nat) : ∀ c ∈ natDigits n, c.isDigit = true := by
  induction n using natDigits.induct with
  | case1 n h =>
      rw [natDigits, dif_pos h]
      intro c hc
      simp at hc
      subst hc
      exact digitChar_isDigit n
  | case2 n h ih =>
      rw [natDigits, dif_neg h]
      intro c hc
      rcases List.mem_append.mp hc with hc | hc
      · exact ih c hc
      · simp at hc
        subst hc
        exact digitChar_isDigit _

theorem natDigits_ne_nil (n : Nat) : natDigits n ≠ [] := by
  rw [natDigits]
  split <;> simp

theorem digitsVal_append_digit (l : List Char) (c : Char) (hc : c ≠ '_') :
    digitsVal (l ++ [c]) = digitsVal l * 10 + (c.toNat - '0'.toNat) := by
  simp [digitsVal, List.foldl_append, hc]

theorem digitsVal_natDigits (n : Nat) : digitsVal (natDigits n) = n := by
  induction n using natDigits.induct with
  | case1 n h =>
      rw [natDigits, dif_pos h]
      have h1 : digitsVal [digitChar n] = (digitChar n).toNat - '0'.toNat := by
        simp [digitsVal, digitChar_ne_us n]
      rw [h1, digitChar_val n h]
  | case2 n h ih =>
      rw [natDigits, dif_neg h]
      rw [digitsVal_append_digit _ _ (digitChar_ne_us _), ih,
        digitChar_val _ (Nat.mod_lt _ (by omega))]
      omega

theorem pyIntParse_pyIntStr (n : Int) : pyIntParse (pyIntStr n) = some n := by
  by_cases hn : n < 0
  · have hds := natDigits_digits (-n).toNat
    have hnws : ∀ c ∈ '-' :: natDigits (-n).toNat, isPyWs c = false := by
      intro c hc
      rcases List.mem_cons.mp hc with rfl | hc
      · rfl
      · have := hds c hc
        revert this
        unfold Char.isDigit isPyWs
        intro hdig
        rcases Bool.and_eq_true .. |>.mp hdig with ⟨h1, h2⟩
        simp only [decide_eq_true_eq] at h1 h2
        simp only [Bool.or_eq_false_iff, decide_eq_false_iff_not]
        have hv0 : ('0' : Char) ≤ c := h1
        refine ⟨⟨⟨⟨⟨?_, ?_⟩, ?_⟩, ?_⟩, ?_⟩, ?_⟩ <;>
          · intro hh
            subst hh
            revert hv0
            decide
    rw [pyIntStr, if_pos hn, pyIntParse, pyStrip_of_no_ws _ hnws]
    simp only []
    rw [if_pos (isDigitPart_of_digits _ (natDigits_ne_nil _) hds)]
    rw [digitsVal_natDigits]
    congr 1
    omega
  · have hds := natDigits_digits n.toNat
    have hnws : ∀ c ∈ natDigits n.toNat, isPyWs c = false := by
      intro c hc
      have := hds c hc
      revert this
      unfold Char.isDigit isPyWs
      intro hdig
      rcases Bool.and_eq_true .. |>.mp hdig with ⟨h1, h2⟩
      simp only [decide_eq_true_eq] at h1 h2
      simp only [Bool.or_eq_false_iff, decide_eq_false_iff_not]
      have hv0 : ('0' : Char) ≤ c := h1
      refine ⟨⟨⟨⟨⟨?_, ?_⟩, ?_⟩, ?_⟩, ?_⟩, ?_⟩ <;>
        · intro hh
          subst hh
          revert hv0
          decide
    have hne := natDigits_ne_nil n.toNat
    rw [pyIntStr, if_neg hn, pyIntParse, pyStrip_of_no_ws _ hnws]
    rcases hsh : natDigits n.toNat with _ | ⟨c, rest⟩
    · exact absurd hsh hne
    · have hcd : c.isDigit = true := hds c (by rw [hsh]; simp)
      have hcp : c ≠ '+' := by
        intro hh; subst hh; simp at hcd
      have hcm : c ≠ '-' := by
        intro hh; subst hh; simp at hcd
      split
      · rename_i rest2 heq
        exact absurd (by injection heq with h1 h2; try exact h1) hcp
      · rename_i rest2 heq
        exact absurd (by injection heq with h1 h2; try exact h1) hcm
      · rw [if_pos (by rw [← hsh]; exact isDigitPart_of_digits _ hne hds)]
        rw [← hsh, digitsVal_natDigits]
        congr 1
        omega

theorem mem_dropWhile_of_mem {p : Char → Bool} (l : List Char) (c : Char)
    (hc : p c = false) (h : c ∈ l) : c ∈ l.dropWhile p := by
  induction l with
  | nil => simp at h
  | cons a t ih =>
      by_cases hp : p a
      · have hca : c ≠ a := by
          intro hh
          subst hh
          rw [hc] at hp
          exact absurd hp (by simp)
        rw [List.dropWhile_cons_of_pos hp]
        exact ih ((List.mem_cons.mp h).resolve_left hca)
      · rw [List.dropWhile_cons_of_neg hp]
        exact h

theorem mem_pyStrip (s : String) (c : Char) (hc : isPyWs c = false)
    (h : c ∈ s.data) : c ∈ (pyStrip s).data := by
  unfold pyStrip
  simp only [List.mem_reverse]
  exact mem_dropWhile_of_mem _ c hc
    (by simpa using mem_dropWhile_of_mem _ c hc h)

theorem pyIntParse_dot_none (s : String) (h : ('.' : Char) ∈ s.data) :
    pyIntParse s = none := by
  have hm : ('.' : Char) ∈ (pyStrip s).data := mem_pyStrip s '.' rfl h
  have hbad : ∀ cs : List Char, ('.' : Char) ∈ cs → isDigitPart cs = false := by
    intro cs hin
    cases hdp : isDigitPart cs
    · rfl
    · rcases isDigitPart_all cs hdp '.' hin with hh | hh <;> simp at hh
  rw [pyIntParse]
  split
  · rename_i rest heq
    rw [heq] at hm
    have : ('.' : Char) ∈ rest := by
      rcases List.mem_cons.mp hm with hh | hh
      · simp at hh
      · exact hh
    rw [if_neg (by simp [hbad rest this])]
  · rename_i rest heq
    rw [heq] at hm
    have : ('.' : Char) ∈ rest := by
      rcases List.mem_cons.mp hm with hh | hh
      · simp at hh
      · exact hh
    rw [if_neg (by simp [hbad rest this])]
  · rw [if_neg (by simp [hbad _ hm])]

/-- The code's set of true-words, after trimming and lower-casing. -/
def isTrueWord (s : String) : Prop := s = "true" ∨ s = "yes" ∨ s = "on"

/-- The code's set of false-words, after trimming and lower-casing. -/
def isFalseWord (s : String) : Prop := s = "false" ∨ s = "no" ∨ s = "off"

instance (s : String) : Decidable (isTrueWord s) := by
  unfold isTrueWord; infer_instance

instance (s : String) : Decidable (isFalseWord s) := by
  unfold isFalseWord; infer_instance

/-- Claim C6: value coercion applies its rules first-match-wins, on every
input string: a trimmed, lower-cased match against the true-words (resp.
false-words) yields the boolean; otherwise a string `int()` accepts
yields that integer — in particular every optionally signed decimal
string `str(n)` does, while a string containing a decimal point is never
accepted by `int()`; otherwise a string `float()` accepts yields a
float; otherwise the original string is returned unmodified, surrounding
whitespace included. -/
theorem C6_coercion_order (raw : String) :
    (isTrueWord (pyLower (pyStrip raw)) → parse_env_like_value raw = .bool true) ∧
    (isFalseWord (pyLower (pyStrip raw)) → parse_env_like_value raw = .bool false) ∧
    (∀ n, ¬isTrueWord (pyLower (pyStrip raw)) → ¬isFalseWord (pyLower (pyStrip raw)) →
      pyIntParse raw = some n → parse_env_like_value raw = .int n) ∧
    (¬isTrueWord (pyLower (pyStrip raw)) → ¬isFalseWord (pyLower (pyStrip raw)) →
      pyIntParse raw = none → pyFloatCheck raw = true →
      parse_env_like_value raw = .float (pyStrip raw)) ∧
    (¬isTrueWord (pyLower (pyStrip raw)) → ¬isFalseWord (pyLower (pyStrip raw)) →
      pyIntParse raw = none → pyFloatCheck raw = false →
      parse_env_like_value raw = .str raw) ∧
    (∀ m : Int, pyIntParse (pyIntStr m) = some m) ∧
    (∀ s : String, ('.' : Char) ∈ s.data → pyIntParse s = none) := by
  refine ⟨?_, ?_, ?_, ?_, ?_, pyIntParse_pyIntStr, pyIntParse_dot_none⟩
  · intro h
    rcases h with h | h | h <;> simp [parse_env_like_value, h]
  · intro h
    rcases h with h | h | h <;> simp [parse_env_like_value, h]
  · intro n ht hf hint
    rw [isTrueWord, not_or, not_or] at ht
    rw [isFalseWord, not_or, not_or] at hf
    simp [parse_env_like_value, ht.1, ht.2.1, ht.2.2, hf.1, hf.2.1, hf.2.2, hint]
  · intro ht hf hint hfl
    rw [isTrueWord, not_or, not_or] at ht
    rw [isFalseWord, not_or, not_or] at hf
    simp [parse_env_like_value, ht.1, ht.2.1, ht.2.2, hf.1, hf.2.1, hf.2.2,
      hint, hfl]
  · intro ht hf hint hfl
    rw [isTrueWord, not_or, not_or] at ht
    rw [isFalseWord, not_or, not_or] at hf
    simp [parse_env_like_value, ht.1, ht.2.1, ht.2.2, hf.1, hf.2.1, hf.2.2,
      hint, hfl]

/-- Witness for C6 at the four kinds of input. -/
theorem C6_coercion_order_witness :
    parse_env_like_value " Yes " = .bool true ∧
    parse_env_like_value "oFF" = .bool false ∧
    parse_env_like_value "-7" = .int (-7) ∧
    parse_env_like_value "2.5" = .float "2.5" ∧
    parse_env_like_value " hi " = .str " hi " := by
  refine ⟨(C6_coercion_order " Yes ").1 (by right; left; rfl),
    (C6_coercion_order "oFF").2.1 (by right; right; rfl),
    (C6_coercion_order "-7").2.2.1 (-7) (by decide) (by decide) rfl,
    ?_, ?_⟩
  · exact (C6_coercion_order "2.5").2.2.2.1 (by decide) (by decide) rfl rfl
  · exact (C6_coercion_order " hi ").2.2.2.2.1 (by decide) (by decide) rfl rfl

/-! ### FileSource codecs: loaders

The external parser libraries (`json`, `yaml.safe_load`, `tomllib`) are
collaborators outside this repository; each loader below therefore takes
the parser's outcome as its argument (a failure, or the parsed value) and
embeds only what `FileSource._load_*` itself does with it. For YAML an
empty document is the parser returning Python `None`; the TOML grammar
only has tables at top level, so `tomllib.load` hands back a dict. -/

/-- Embedding of `FileSource._load_json`: the parser's failure is wrapped
into a configuration error, but a successfully parsed value is returned
as-is, with no check that it is a mapping. -/
def FileSource_load_json (parsed : Except String Value) : Except String Value :=
  match parsed with
  | .error e => .error ("Invalid JSON: " ++ e)
  | .ok v => .ok v

/-- Embedding of `FileSource._load_yaml`: parse failures are wrapped, the
empty document (`None`) becomes the empty dict, and a non-mapping top
level is rejected. -/
def FileSource_load_yaml (parsed : Except String (Option Value)) : Except String Value :=
  match parsed with
  | .error e => .error ("Invalid YAML: " ++ e)
  | .ok none => .ok (.map [])
  | .ok (some v) =>
      if v.isMap then .ok v
      else .error "Top-level YAML structure must be a mapping."

/-- Embedding of `FileSource._load_toml`: parse failures are wrapped; a
successful `tomllib.load` is returned directly — by the TOML grammar it
is a table, and an empty file parses to the empty table. -/
def FileSource_load_toml (parsed : Except String Entries) : Except String Value :=
  match parsed with
  | .error e => .error ("Invalid TOML: " ++ e)
  | .ok t => .ok (.map t)

/-- Claim C2 evaluated at the failing input: a JSON file whose top level
parses to the array `[1, 2]` is returned unchanged (and unrejected) by
`FileSource._load_json`, although the value is not a mapping — the
claimed parse-time error exists only for YAML, where a non-mapping top
level is rejected and an empty document yields the empty mapping; a
successfully parsed TOML document is always a table. -/
theorem C2_json_top_level_unchecked :
    FileSource_load_json (.ok (.list [.int 1, .int 2])) =
      .ok (.list [.int 1, .int 2]) ∧
    Value.isMap (.list [.int 1, .int 2]) = false ∧
    FileSource_load_yaml (.ok (some (.list [.int 1, .int 2]))) =
      .error "Top-level YAML structure must be a mapping." ∧
    FileSource_load_yaml (.ok none) = .ok (.map []) ∧
    (∀ t : Entries, FileSource_load_toml (.ok t) = .ok (.map t)) := by
  exact ⟨rfl, rfl, rfl, rfl, fun t => rfl⟩

/-! ### INI codec

`FileSource._dump_ini` builds a `ConfigParser` state — a list of sections,
each a list of option/value strings — and only then writes it out;
`FileSource._load_ini` walks `parser.sections()` and coerces each value.
The text layer (`parser.write` followed by `read_file`) is modelled as the
identity on that section/option/value structure; that is faithful for
newline-free section names and option keys and for values without leading
or trailing whitespace (the parser strips values on read), which the
round-trip theorem assumes, and for section names other than the parser's
reserved default section. Setting an option applies the parser's
`optionxform`, which lower-cases the option name. -/

/-- Serializer errors of `_dump_ini`, with the context the messages carry:
the offending dotted `section.option` path, or the top-level key holding a
non-mapping. -/
inductive IniDumpError where
  | nonScalar (path : String)
  | topLevelNotMapping (key : String)
deriving Repr, DecidableEq

/-- A `ConfigParser` state: sections in insertion order, each holding
option/value string pairs in insertion order. -/
abbrev IniDoc := List (String × List (String × String))

/-- `isinstance(value, (str, int, float, bool))`. -/
def isIniScalar : Value → Bool
  | .str _ => true
  | .int _ => true
  | .float _ => true
  | .bool _ => true
  | _ => false

/-- Embedding of the `_ensure_scalar` closure of `_dump_ini`: `str(value)`
for the four scalar types, an error naming the dotted path otherwise. -/
def ensure_scalar : Value → String → Except IniDumpError String
  | .str s, _ => .ok s
  | .int n, _ => .ok (pyIntStr n)
  | .float f, _ => .ok f
  | .bool true, _ => .ok "True"
  | .bool false, _ => .ok "False"
  | v, path => .error (.nonScalar path)

/-- The inner `for option, option_value in section_value.items()` loop of
`_dump_ini`: option names pass through the parser's lower-casing
`optionxform` when stored, the dotted error path uses the original
spelling. -/
def FileSource_dump_ini_section (secName : String) :
    Entries → Except IniDumpError (List (String × String))
  | [] => .ok []
  | (optKey, optVal) :: rest => do
      let s ← ensure_scalar optVal (secName ++ "." ++ optKey)
      let r ← FileSource_dump_ini_section secName rest
      pure ((pyLower optKey, s) :: r)

/-- Embedding of `FileSource._dump_ini` up to the parser state it builds:
the first non-mapping section value or non-scalar option value raises,
before any file is opened. -/
def FileSource_dump_ini : Entries → Except IniDumpError IniDoc
  | [] => .ok []
  | (secName, secVal) :: rest =>
      match secVal with
      | .map m => do
          let sec ← FileSource_dump_ini_section secName m
          let r ← FileSource_dump_ini rest
          pure ((secName, sec) :: r)
      | _ => .error (.topLevelNotMapping secName)

/-- Embedding of `FileSource._load_ini`: every stored option value goes
through `_parse_env_like_value`. -/
def FileSource_load_ini (doc : IniDoc) : Entries :=
  doc.map (fun sec =>
    (sec.1, Value.map (sec.2.map (fun kv => (kv.1, parse_env_like_value kv.2)))))

/-- On-disk state of one configuration path: the committed target content
and a possible `.tmp` sibling. -/
structure FState (α : Type) where
  target : Option α
  tmp : Option α
deriving Repr, DecidableEq

/-- `FileSource.dump` for an `.ini` path, at the granularity of the target
path: a serializer error is raised before the temporary file is even
opened, so the whole on-disk state is untouched; on success the rendered
document is written to the temporary sibling and atomically renamed over
the target (the I/O failure injection of the atomic-writer model below is
orthogonal and omitted here). -/
def FileSource_dump_ini_io (st : FState IniDoc) (data : Entries) :
    FState IniDoc × Option IniDumpError :=
  match FileSource_dump_ini data with
  | .error e => (st, some e)
  | .ok rendered => (⟨some rendered, none⟩, none)

theorem dump_ini_section_bad_option (secName : String) (m : Entries) :
    ∀ (optKey : String) (optVal : Value), (optKey, optVal) ∈ m →
    isIniScalar optVal = false →
    ∃ e, FileSource_dump_ini_section secName m = .error e := by
  induction m with
  | nil => intro _ _ h _; simp at h
  | cons hd tl ih =>
      intro optKey optVal hmem hns
      obtain ⟨k, v⟩ := hd
      rcases List.mem_cons.mp hmem with heq | hmem'
      · injection heq with h1 h2
        subst h1; subst h2
        cases optVal <;> simp [isIniScalar] at hns <;>
          exact ⟨_, by rw [FileSource_dump_ini_section]; rfl⟩
      · rcases hsec : ensure_scalar v (secName ++ "." ++ k) with e | s
        · exact ⟨e, by rw [FileSource_dump_ini_section]; rw [hsec]; rfl⟩
        · obtain ⟨e, he⟩ := ih optKey optVal hmem' hns
          refine ⟨e, ?_⟩
          rw [FileSource_dump_ini_section, hsec, he]
          rfl

theorem dump_ini_bad_section (data : Entries) :
    ∀ (secName : String) (secVal : Value), (secName, secVal) ∈ data →
    secVal.isMap = false →
    ∃ e, FileSource_dump_ini data = .error e := by
  induction data with
  | nil => intro _ _ h _; simp at h
  | cons hd tl ih =>
      intro secName secVal hmem hnm
      obtain ⟨sn, sv⟩ := hd
      rcases List.mem_cons.mp hmem with heq | hmem'
      · injection heq with h1 h2
        subst h1; subst h2
        cases secVal <;> simp [Value.isMap] at hnm <;>
          exact ⟨_, by rw [FileSource_dump_ini] <;> (intro a h; exact Value.noConfusion h)⟩
      · cases sv with
        | map m =>
            rcases hsec : FileSource_dump_ini_section sn m with e | s
            · exact ⟨e, by rw [FileSource_dump_ini, hsec]; rfl⟩
            · obtain ⟨e, he⟩ := ih secName secVal hmem' hnm
              refine ⟨e, ?_⟩
              rw [FileSource_dump_ini]
              rw [hsec, he]
              rfl
        | str s => exact ⟨_, by rw [FileSource_dump_ini] <;> (intro a h; exact Value.noConfusion h)⟩
        | int n => exact ⟨_, by rw [FileSource_dump_ini] <;> (intro a h; exact Value.noConfusion h)⟩
        | float f => exact ⟨_, by rw [FileSource_dump_ini] <;> (intro a h; exact Value.noConfusion h)⟩
        | bool b => exact ⟨_, by rw [FileSource_dump_ini] <;> (intro a h; exact Value.noConfusion h)⟩
        | null => exact ⟨_, by rw [FileSource_dump_ini] <;> (intro a h; exact Value.noConfusion h)⟩
        | list l => exact ⟨_, by rw [FileSource_dump_ini] <;> (intro a h; exact Value.noConfusion h)⟩

theorem dump_ini_bad_option (data : Entries) :
    ∀ (secName : String) (m : Entries) (optKey : String) (optVal : Value),
    (secName, .map m) ∈ data → (optKey, optVal) ∈ m →
    isIniScalar optVal = false →
    ∃ e, FileSource_dump_ini data = .error e := by
  induction data with
  | nil => intro _ _ _ _ h _ _; simp at h
  | cons hd tl ih =>
      intro secName m optKey optVal hmem hopt hns
      obtain ⟨sn, sv⟩ := hd
      rcases List.mem_cons.mp hmem with heq | hmem'
      · injection heq with h1 h2
        subst h1; subst h2
        obtain ⟨e, he⟩ := dump_ini_section_bad_option secName m optKey optVal hopt hns
        refine ⟨e, ?_⟩
        rw [FileSource_dump_ini]
        rw [he]
        rfl
      · cases sv with
        | map m' =>
            rcases hsec : FileSource_dump_ini_section sn m' with e | s
            · exact ⟨e, by rw [FileSource_dump_ini, hsec]; rfl⟩
            · obtain ⟨e, he⟩ := ih secName m optKey optVal hmem' hopt hns
              refine ⟨e, ?_⟩
              rw [FileSource_dump_ini]
              rw [hsec, he]
              rfl
        | str s => exact ⟨_, by rw [FileSource_dump_ini] <;> (intro a h; exact Value.noConfusion h)⟩
        | int n => exact ⟨_, by rw [FileSource_dump_ini] <;> (intro a h; exact Value.noConfusion h)⟩
        | float f => exact ⟨_, by rw [FileSource_dump_ini] <;> (intro a h; exact Value.noConfusion h)⟩
        | bool b => exact ⟨_, by rw [FileSource_dump_ini] <;> (intro a h; exact Value.noConfusion h)⟩
        | null => exact ⟨_, by rw [FileSource_dump_ini] <;> (intro a h; exact Value.noConfusion h)⟩
        | list l => exact ⟨_, by rw [FileSource_dump_ini] <;> (intro a h; exact Value.noConfusion h)⟩

/-- Claim C8: INI serialization rejects — it never stringifies — any
option value outside string/integer/float/boolean, and any non-mapping
top-level value; dumping `{"app": {"prints": ["a","b"]}}` fails with the
error identifying the dotted path `app.prints`; and a serializer error is
raised before the temporary file is opened, so the target path's previous
content (indeed the whole on-disk state) is unchanged. -/
theorem C8_ini_dump_rejects :
    FileSource_dump_ini [("app", .map [("prints", .list [.str "a", .str "b"])])] =
      .error (.nonScalar "app.prints") ∧
    (∀ (data : Entries) (secName : String) (secVal : Value),
      (secName, secVal) ∈ data → secVal.isMap = false →
      ∃ e, FileSource_dump_ini data = .error e) ∧
    (∀ (data m : Entries) (secName optKey : String) (optVal : Value),
      (secName, .map m) ∈ data → (optKey, optVal) ∈ m →
      isIniScalar optVal = false →
      ∃ e, FileSource_dump_ini data = .error e) ∧
    (∀ (st : FState IniDoc) (data : Entries) (e : IniDumpError),
      FileSource_dump_ini data = .error e →
      FileSource_dump_ini_io st data = (st, some e)) := by
  refine ⟨rfl, ?_, ?_, ?_⟩
  · intro data secName secVal hsec hbad
    exact dump_ini_bad_section data secName secVal hsec hbad
  · intro data m secName optKey optVal hsec hopt hbad
    exact dump_ini_bad_option data secName m optKey optVal hsec hopt hbad
  · intro st data e herr
    simp [FileSource_dump_ini_io, herr]

/-- Witness for C8 at a concrete tree with both a non-mapping top-level
value and a non-scalar option, against a concrete pre-existing target. -/
theorem C8_ini_dump_rejects_witness :
    (∃ e, FileSource_dump_ini
        [("raw", Value.int 3),
         ("app", .map [("prints", .list [.str "a", .str "b"])])] = .error e) ∧
    (∃ e, FileSource_dump_ini
        [("app", .map [("prints", .list [.str "a", .str "b"])])] = .error e) ∧
    FileSource_dump_ini_io ⟨some [("old", [("k", "1")])], none⟩
        [("raw", Value.int 3),
         ("app", .map [("prints", .list [.str "a", .str "b"])])] =
      (⟨some [("old", [("k", "1")])], none⟩, some (.topLevelNotMapping "raw")) := by
  have h := C8_ini_dump_rejects
  refine ⟨h.2.1
      [("raw", Value.int 3), ("app", .map [("prints", .list [.str "a", .str "b"])])]
      "raw" (Value.int 3) (by simp) rfl,
    h.2.2.1
      [("app", .map [("prints", .list [.str "a", .str "b"])])]
      [("prints", .list [.str "a", .str "b"])]
      "app" "prints" (.list [.str "a", .str "b"]) (by simp) (by simp) rfl,
    h.2.2.2 ⟨some [("old", [("k", "1")])], none⟩
      [("raw", Value.int 3), ("app", .map [("prints", .list [.str "a", .str "b"])])]
      (.topLevelNotMapping "raw") rfl⟩

/-! ### Atomic writes (FileSource.dump / RawSource.dump)

The I/O sequence of both dump paths over the `FState` of one target path,
with failure injection for every step. `FileSource.dump` serializes into
the freshly opened temporary sibling (a serializer that raises midway can
leave arbitrary partial temp content, never touching the target) and then
calls `os.replace`. `RawSource.dump` writes the payload to the temporary
sibling, applies the optional file mode to it, calls `os.replace`, and
re-applies the mode to the final file. `os.replace` is atomic: it either
moves the complete temporary file onto the target or changes nothing. -/

/-- Failure injection for one dump run: which steps succeed, the full
serialized payload, and whatever a failed temp-file write leaves behind. -/
structure DumpRun (α : Type) where
  serOk : Bool
  writeOk : Bool
  chmodTmpOk : Bool
  renameOk : Bool
  chmodFinOk : Bool
  full : α
  failTmp : Option α

/-- `FileSource.dump` (no file-mode handling): serialize into the temp
file, then atomically replace the target. -/
def FileSource_dump_run {α : Type} (st : FState α) (r : DumpRun α) :
    FState α × Bool :=
  if r.serOk = false then ({ target := st.target, tmp := r.failTmp }, false)
  else if r.writeOk = false then ({ target := st.target, tmp := r.failTmp }, false)
  else if r.renameOk = false then ({ target := st.target, tmp := some r.full }, false)
  else ({ target := some r.full, tmp := none }, true)

/-- `RawSource.dump`: write the payload to the temp file, chmod the temp
file, atomically replace, chmod the final file (a failure of the final
chmod raises after the rename, so the new content is already in place). -/
def RawSource_dump_run {α : Type} (st : FState α) (r : DumpRun α) :
    FState α × Bool :=
  if r.writeOk = false then ({ target := st.target, tmp := r.failTmp }, false)
  else if r.chmodTmpOk = false then ({ target := st.target, tmp := some r.full }, false)
  else if r.renameOk = false then ({ target := st.target, tmp := some r.full }, false)
  else if r.chmodFinOk = false then ({ target := some r.full, tmp := none }, false)
  else ({ target := some r.full, tmp := none }, true)

/-- Claim C9: for both dump paths, a successful return leaves exactly the
full new content at the target with no `.tmp` sibling; and a failure of
any step before the atomic rename (serialization or temp write for
`FileSource`; temp write or the temp-file permission change for
`RawSource` — and the rename itself in either case) leaves the previous
target content unchanged, at worst orphaning a temporary file. -/
theorem C9_atomic_dump {α : Type} (st : FState α) (r : DumpRun α) :
    ((FileSource_dump_run st r).2 = true →
      (FileSource_dump_run st r).1 = { target := some r.full, tmp := none }) ∧
    (r.serOk = false ∨ r.writeOk = false ∨ r.renameOk = false →
      (FileSource_dump_run st r).1.target = st.target) ∧
    ((RawSource_dump_run st r).2 = true →
      (RawSource_dump_run st r).1 = { target := some r.full, tmp := none }) ∧
    (r.writeOk = false ∨ r.chmodTmpOk = false ∨ r.renameOk = false →
      (RawSource_dump_run st r).1.target = st.target) := by
  obtain ⟨so, wo, cto, ro, cfo, full, ft⟩ := r
  refine ⟨?_, ?_, ?_, ?_⟩ <;>
    cases so <;> cases wo <;> cases cto <;> cases ro <;> cases cfo <;>
      simp [FileSource_dump_run, RawSource_dump_run]

/-- Witness for C9: a successful run over an existing target, and a run
whose temp-file write fails. -/
theorem C9_atomic_dump_witness :
    (FileSource_dump_run (α := String) ⟨some "old", none⟩
        ⟨true, true, true, true, true, "new", none⟩).1 =
      { target := some "new", tmp := none } ∧
    (RawSource_dump_run (α := String) ⟨some "old", none⟩
        ⟨true, false, true, true, true, "new", some "par"⟩).1.target =
      some "old" := by
  refine ⟨(C9_atomic_dump ⟨some "old", none⟩ ⟨true, true, true, true, true, "new", none⟩).1 rfl, ?_⟩
  exact (C9_atomic_dump ⟨some "old", none⟩
    ⟨true, false, true, true, true, "new", some "par"⟩).2.2.2 (Or.inl rfl)

/-! ### Round trips (claim C4)

The external codec backends are collaborators outside this repository;
per the spec's codec contract they are value-faithful, so each round trip
is modelled at the value level. What the repository's own code
contributes: JSON is dumped with `sort_keys=True` (each object's keys come
back sorted), YAML with `sort_keys=False` and TOML via `tomli_w` keep both
values and order, and INI goes through `_dump_ini`/`_load_ini` above. -/

/-- Insert one pair into a key-sorted list of pairs. -/
def insertPair (p : String × Value) : List (String × Value) → List (String × Value)
  | [] => [p]
  | q :: rest => if p.1 ≤ q.1 then p :: q :: rest else q :: insertPair p rest

/-- Sort one dict level by key (insertion sort). -/
def sortPairs : List (String × Value) → List (String × Value)
  | [] => []
  | p :: rest => insertPair p (sortPairs rest)

mutual

/-- The value coming back from a `json.dump(sort_keys=True)` /
`json.load` cycle: same values, every object's keys sorted. -/
def sortKeysRec : Value → Value
  | .map m => .map (sortPairs (mapSort m))
  | .list l => .list (listSort l)
  | v => v

/-- `sortKeysRec` applied to every value of one dict level. -/
def mapSort : List (String × Value) → List (String × Value)
  | [] => []
  | (k, v) :: rest => (k, sortKeysRec v) :: mapSort rest

/-- `sortKeysRec` applied to every element of a list. -/
def listSort : List Value → List Value
  | [] => []
  | v :: rest => sortKeysRec v :: listSort rest

end

mutual

/-- Python `==` on embedded values: dicts compare as unordered key/value
maps, lists positionally, `True == 1` and `False == 0`; two float
literals compare as written (the abstraction of the float model). -/
def pyEq : Value → Value → Bool
  | .str a, .str b => a = b
  | .int a, .int b => a = b
  | .int a, .bool b => a = (if b then 1 else 0)
  | .bool a, .int b => (if a then (1 : Int) else 0) = b
  | .float a, .float b => a = b
  | .bool a, .bool b => a = b
  | .null, .null => true
  | .list a, .list b => pyEqList a b
  | .map a, .map b => a.length = b.length && pyEqMap a b
  | _, _ => false

/-- `all (k, v) in a: k in b and b[k] == v`. -/
def pyEqMap : List (String × Value) → List (String × Value) → Bool
  | [], _ => true
  | (k, v) :: rest, bm =>
      (match lookup bm k with
       | some w => pyEq v w
       | none => false) && pyEqMap rest bm

/-- Positional comparison of two lists. -/
def pyEqList : List Value → List Value → Bool
  | [], [] => true
  | a :: as, b :: bs => pyEq a b && pyEqList as bs
  | _, _ => false

end

mutual

/-- A value the Python runtime can actually hold: every dict level has
pairwise-distinct keys. -/
def wfTree : Value → Bool
  | .map m => decide ((keysOf m).Nodup) && wfEntries m
  | .list l => wfList l
  | _ => true

/-- `wfTree` over the values of one dict level. -/
def wfEntries : List (String × Value) → Bool
  | [] => true
  | (_, v) :: rest => wfTree v && wfEntries rest

/-- `wfTree` over the elements of a list. -/
def wfList : List Value → Bool
  | [] => true
  | v :: rest => wfTree v && wfList rest

end

theorem insertPair_perm (p : String × Value) (l : List (String × Value)) :
    (insertPair p l).Perm (p :: l) := by
  induction l with
  | nil => simp [insertPair]
  | cons q rest ih =>
      by_cases h : p.1 ≤ q.1
      · simp [insertPair, h]
      · rw [insertPair, if_neg h]
        exact (ih.cons q).trans (List.Perm.swap p q rest)

theorem sortPairs_perm (l : List (String × Value)) : (sortPairs l).Perm l := by
  induction l with
  | nil => simp [sortPairs]
  | cons p rest ih =>
      exact (insertPair_perm p (sortPairs rest)).trans (ih.cons p)

theorem keysOf_perm {l l' : Entries} (h : l.Perm l') :
    (keysOf l).Perm (keysOf l') := h.map Prod.fst

theorem lookup_perm {l l' : Entries} (h : l.Perm l') (hnd : NodupKeys l)
    (k : String) : lookup l k = lookup l' k := by
  induction h with
  | nil => rfl
  | cons p h ih =>
      obtain ⟨k₀, v₀⟩ := p
      have hnd' : NodupKeys _ := (List.nodup_cons.mp hnd).2
      by_cases hk : k₀ = k
      · simp [lookup, hk]
      · simp [lookup, hk, ih hnd']
  | swap x y l =>
      obtain ⟨kx, vx⟩ := x
      obtain ⟨ky, vy⟩ := y
      have hxy : ky ≠ kx := by
        have := (List.nodup_cons.mp hnd).1
        intro hh
        exact this (by simp [keysOf, hh])
      by_cases h1 : ky = k
      · have hkx : kx ≠ k := fun hh => hxy (by rw [h1, hh])
        simp [lookup, h1, hkx]
      · by_cases h2 : kx = k
        · simp [lookup, h1, h2]
        · simp [lookup, h1, h2]
  | trans h1 h2 ih1 ih2 =>
      have hnd2 : NodupKeys _ := ((keysOf_perm h1).nodup_iff).mp hnd
      rw [ih1 hnd, ih2 hnd2]

theorem lookup_of_mem_nodup {m : Entries} {k : String} {v : Value}
    (hnd : NodupKeys m) (h : (k, v) ∈ m) : lookup m k = some v := by
  induction m with
  | nil => simp at h
  | cons q rest ih =>
      obtain ⟨k₀, v₀⟩ := q
      rcases List.mem_cons.mp h with heq | hmem
      · injection heq with h1 h2
        subst h1; subst h2
        simp [lookup]
      · have hk : k₀ ≠ k := by
          intro hh
          subst hh
          exact (List.nodup_cons.mp hnd).1
            (by simpa [keysOf] using List.mem_map_of_mem Prod.fst hmem)
        simp only [lookup, if_neg hk]
        exact ih (List.nodup_cons.mp hnd).2 hmem

theorem keysOf_mapSort (m : Entries) : keysOf (mapSort m) = keysOf m := by
  induction m with
  | nil => rfl
  | cons p rest ih =>
      obtain ⟨k, v⟩ := p
      simp [mapSort, keysOf] at ih ⊢
      exact ih

theorem mem_mapSort {m : Entries} {p : String × Value} (h : p ∈ mapSort m) :
    ∃ v, (p.1, v) ∈ m ∧ p.2 = sortKeysRec v := by
  induction m with
  | nil => simp [mapSort] at h
  | cons q rest ih =>
      obtain ⟨k, v⟩ := q
      rw [mapSort] at h
      rcases List.mem_cons.mp h with heq | hmem
      · exact ⟨v, by simp [heq], by simp [heq]⟩
      · obtain ⟨w, hw1, hw2⟩ := ih hmem
        exact ⟨w, List.mem_cons_of_mem _ hw1, hw2⟩

theorem mapSort_length (m : Entries) : (mapSort m).length = m.length := by
  induction m with
  | nil => rfl
  | cons p rest ih =>
      obtain ⟨k, v⟩ := p
      simp [mapSort, ih]

theorem pyEqMap_of_forall (a bm : List (String × Value))
    (h : ∀ p ∈ a, ∃ w, lookup bm p.1 = some w ∧ pyEq p.2 w = true) :
    pyEqMap a bm = true := by
  induction a with
  | nil => rfl
  | cons p rest ih =>
      obtain ⟨k, v⟩ := p
      obtain ⟨w, hw1, hw2⟩ := h (k, v) (by simp)
      rw [pyEqMap, hw1]
      simp only [Bool.and_eq_true]
      exact ⟨hw2, ih (fun q hq => h q (List.mem_cons_of_mem _ hq))⟩

theorem pyEqList_listSort (l : List Value)
    (h : ∀ v ∈ l, pyEq (sortKeysRec v) v = true) :
    pyEqList (listSort l) l = true := by
  induction l with
  | nil => rfl
  | cons v rest ih =>
      rw [listSort, pyEqList]
      simp only [Bool.and_eq_true]
      exact ⟨h v (by simp), ih (fun w hw => h w (List.mem_cons_of_mem _ hw))⟩

theorem wfList_mem (l : List Value) (h : wfList l = true) :
    ∀ v ∈ l, wfTree v = true := by
  induction l with
  | nil => intro v hv; simp at hv
  | cons w rest ih =>
      intro v hv
      rw [wfList, Bool.and_eq_true] at h
      rcases List.mem_cons.mp hv with rfl | hmem
      · exact h.1
      · exact ih h.2 v hmem

theorem wfEntries_mem (m : Entries) (h : wfEntries m = true) :
    ∀ p ∈ m, wfTree p.2 = true := by
  induction m with
  | nil => intro p hp; simp at hp
  | cons q rest ih =>
      intro p hp
      obtain ⟨k, v⟩ := q
      rw [wfEntries, Bool.and_eq_true] at h
      rcases List.mem_cons.mp hp with rfl | hmem
      · exact h.1
      · exact ih h.2 p hmem

mutual

/-- Reflexivity of Python `==` on runtime-representable values. -/
theorem pyEq_refl : ∀ (t : Value), wfTree t = true → pyEq t t = true
  | .str s, _ => by simp [pyEq]
  | .int n, _ => by simp [pyEq]
  | .float f, _ => by simp [pyEq]
  | .bool b, _ => by simp [pyEq]
  | .null, _ => by simp [pyEq]
  | .list l, h => by
      rw [pyEq]
      exact pyEq_refl_list l (by simpa [wfTree] using h)
  | .map m, h => by
      rw [wfTree, Bool.and_eq_true, decide_eq_true_eq] at h
      rw [pyEq]
      simp only [Bool.and_eq_true, decide_eq_true_eq]
      refine ⟨trivial, pyEqMap_of_forall m m ?_⟩
      intro p hp
      exact ⟨p.2, lookup_of_mem_nodup h.1 hp,
        pyEq_refl_entry m h.2 p hp⟩

theorem pyEq_refl_entry : ∀ (m : Entries), wfEntries m = true →
    ∀ p ∈ m, pyEq p.2 p.2 = true
  | [], _, p, hp => by simp at hp
  | (k, v) :: rest, h, p, hp => by
      rw [wfEntries, Bool.and_eq_true] at h
      rcases List.mem_cons.mp hp with heq | hmem
      · subst heq
        exact pyEq_refl v h.1
      · exact pyEq_refl_entry rest h.2 p hmem

theorem pyEq_refl_list : ∀ (l : List Value), wfList l = true →
    pyEqList l l = true
  | [], _ => rfl
  | v :: rest, h => by
      rw [wfList, Bool.and_eq_true] at h
      rw [pyEqList, Bool.and_eq_true]
      exact ⟨pyEq_refl v h.1, pyEq_refl_list rest h.2⟩

end

mutual

/-- Sorting every object's keys leaves a runtime-representable value
Python-equal to the original. -/
theorem pyEq_sortKeysRec : ∀ (t : Value), wfTree t = true →
    pyEq (sortKeysRec t) t = true
  | .str s, _ => by simp [sortKeysRec, pyEq]
  | .int n, _ => by simp [sortKeysRec, pyEq]
  | .float f, _ => by simp [sortKeysRec, pyEq]
  | .bool b, _ => by simp [sortKeysRec, pyEq]
  | .null, _ => by simp [sortKeysRec, pyEq]
  | .list l, h => by
      rw [sortKeysRec, pyEq]
      exact pyEqList_listSort l (pyEq_sort_list l (by simpa [wfTree] using h))
  | .map m, h => by
      rw [wfTree, Bool.and_eq_true, decide_eq_true_eq] at h
      rw [sortKeysRec, pyEq]
      simp only [Bool.and_eq_true, decide_eq_true_eq]
      constructor
      · rw [(sortPairs_perm (mapSort m)).length_eq, mapSort_length]
      · refine pyEqMap_of_forall _ m ?_
        intro p hp
        have hp' : p ∈ mapSort m := (sortPairs_perm (mapSort m)).mem_iff.mp hp
        obtain ⟨v, hv1, hv2⟩ := mem_mapSort hp'
        refine ⟨v, lookup_of_mem_nodup h.1 hv1, ?_⟩
        rw [hv2]
        exact pyEq_sort_entry m h.2 (p.1, v) hv1

theorem pyEq_sort_entry : ∀ (m : Entries), wfEntries m = true →
    ∀ p ∈ m, pyEq (sortKeysRec p.2) p.2 = true
  | [], _, p, hp => by simp at hp
  | (k, v) :: rest, h, p, hp => by
      rw [wfEntries, Bool.and_eq_true] at h
      rcases List.mem_cons.mp hp with heq | hmem
      · subst heq
        exact pyEq_sortKeysRec v h.1
      · exact pyEq_sort_entry rest h.2 p hmem

theorem pyEq_sort_list : ∀ (l : List Value), wfList l = true →
    ∀ v ∈ l, pyEq (sortKeysRec v) v = true
  | [], _, v, hv => by simp at hv
  | w :: rest, h, v, hv => by
      rw [wfList, Bool.and_eq_true] at h
      rcases List.mem_cons.mp hv with rfl | hmem
      · exact pyEq_sortKeysRec v h.1
      · exact pyEq_sort_list rest h.2 v hmem

end

theorem toLower_eq_self_of_small (c : Char) (h : c.toNat < 65) :
    c.toLower = c := by
  rw [Char.toLower]
  rw [if_neg]
  omega

theorem toLower_of_digit (c : Char) (h : c.isDigit = true) : c.toLower = c := by
  apply toLower_eq_self_of_small
  rw [Char.isDigit] at h
  rcases Bool.and_eq_true _ _ |>.mp h with ⟨h1, h2⟩
  simp only [decide_eq_true_eq] at h2
  rw [UInt32.le_def, BitVec.le_def] at h2
  rw [Char.toNat]
  have h57 : ((57 : UInt32)).toBitVec.toNat = 57 := rfl
  rw [h57] at h2
  have h3 : c.val.toNat = c.val.toBitVec.toNat := rfl
  rw [h3]
  omega

theorem pyIntStr_chars (n : Int) :
    ∀ c ∈ (pyIntStr n).data, c.isDigit = true ∨ c = '-' := by
  rw [pyIntStr]
  split
  · intro c hc
    rcases List.mem_cons.mp hc with rfl | hc
    · right; rfl
    · left; exact natDigits_digits _ c hc
  · intro c hc
    left
    exact natDigits_digits _ c hc

theorem isPyWs_false_of_digit (c : Char) (h : c.isDigit = true) :
    isPyWs c = false := by
  rw [Char.isDigit] at h
  rcases Bool.and_eq_true _ _ |>.mp h with ⟨h1, _⟩
  simp only [ge_iff_le, decide_eq_true_eq] at h1
  cases hw : isPyWs c
  · rfl
  · exfalso
    rw [isPyWs] at hw
    simp only [Bool.or_eq_true, decide_eq_true_eq] at hw
    rcases hw with ((((hh | hh) | hh) | hh) | hh) | hh <;>
      · subst hh
        revert h1
        decide

theorem pyIntStr_strip (n : Int) : pyStrip (pyIntStr n) = pyIntStr n := by
  have happ : pyStrip ⟨(pyIntStr n).data⟩ = ⟨(pyIntStr n).data⟩ :=
    pyStrip_of_no_ws _ (fun c hc => by
      rcases pyIntStr_chars n c hc with hd | rfl
      · exact isPyWs_false_of_digit c hd
      · rfl)
  exact happ

theorem map_toLower_id (l : List Char)
    (h : ∀ c ∈ l, c.isDigit = true ∨ c = '-') :
    l.map Char.toLower = l := by
  induction l with
  | nil => rfl
  | cons c rest ih =>
      have hfix : c.toLower = c := by
        rcases h c (by simp) with hd | rfl
        · exact toLower_of_digit c hd
        · rfl
      simp [hfix, ih (fun x hx => h x (List.mem_cons_of_mem _ hx))]

theorem pyLower_intStr (n : Int) : pyLower (pyIntStr n) = pyIntStr n := by
  rw [pyLower, map_toLower_id _ (pyIntStr_chars n)]

/-- The integer branch of the coercion, isolated: when the trimmed
lower-cased string is no boolean word and `int()` succeeds, the parsed
integer is returned. -/
theorem parse_int_branch (raw : String) (n : Int)
    (ht : ¬isTrueWord (pyLower (pyStrip raw)))
    (hf : ¬isFalseWord (pyLower (pyStrip raw)))
    (hint : pyIntParse raw = some n) : parse_env_like_value raw = .int n := by
  rw [isTrueWord, not_or, not_or] at ht
  rw [isFalseWord, not_or, not_or] at hf
  simp [parse_env_like_value, ht.1, ht.2.1, ht.2.2, hf.1, hf.2.1, hf.2.2, hint]

/-- `str(n)` of an integer always coerces back to that integer. -/
theorem parse_env_int (n : Int) : parse_env_like_value (pyIntStr n) = .int n := by
  have h0 := pyIntParse_pyIntStr n
  have hlow : pyLower (pyStrip (pyIntStr n)) = pyIntStr n := by
    rw [pyIntStr_strip, pyLower_intStr]
  have hnot : ∀ w : String, pyIntParse w = none → pyIntStr n ≠ w := by
    intro w hw hh
    rw [hh, hw] at h0
    exact Option.noConfusion h0
  apply parse_int_branch _ _ ?_ ?_ h0
  · rw [hlow]
    intro hcon
    rcases hcon with hc | hc | hc
    · exact hnot "true" rfl hc
    · exact hnot "yes" rfl hc
    · exact hnot "on" rfl hc
  · rw [hlow]
    intro hcon
    rcases hcon with hc | hc | hc
    · exact hnot "false" rfl hc
    · exact hnot "no" rfl hc
    · exact hnot "off" rfl hc

/-- What parsing a file serialized by `_dump_json` yields: the same tree
with each object's keys sorted (`sort_keys=True`), the external
`json.dump`/`json.load` pair being value-faithful. -/
def FileSource_json_roundtrip (t : Value) : Value := sortKeysRec t

/-- What parsing a file serialized by `_dump_yaml` yields: the same tree
(`safe_dump(sort_keys=False)` keeps order; `safe_load` is
value-faithful). -/
def FileSource_yaml_roundtrip (t : Value) : Value := t

/-- What parsing a file serialized by `_dump_toml` yields: the same tree
(`tomli_w.dumps` / `tomllib.load` are value-faithful on TOML-supported
trees). -/
def FileSource_toml_roundtrip (t : Value) : Value := t

/-- No newline or carriage return: the stored string survives the
`parser.write`/`read_file` text layer verbatim. -/
def iniTextSafe (s : String) : Bool :=
  !s.data.contains '\n' && !s.data.contains '\r'

/-- One INI section the dump-then-load cycle can reproduce exactly:
distinct option keys, already lower-case (the parser's `optionxform`
lower-cases them on store), safe for the text layer, each value a fixed
point of `str()` followed by stripping and value coercion. -/
def iniSectionReady (m : Entries) : Prop :=
  NodupKeys m ∧
  ∀ p ∈ m, parse_env_like_value (pyStr p.2) = p.2 ∧ pyLower p.1 = p.1 ∧
    pyStrip (pyStr p.2) = pyStr p.2 ∧ iniTextSafe p.1 = true ∧
    iniTextSafe (pyStr p.2) = true

/-- A tree the INI dump-then-load cycle reproduces: distinct section
names, none the parser's reserved default section, text-safe, every
section a ready mapping. -/
def iniReady (data : Entries) : Prop :=
  NodupKeys data ∧
  ∀ q ∈ data, q.1 ≠ "DEFAULT" ∧ iniTextSafe q.1 = true ∧
    ∃ m, q.2 = .map m ∧ iniSectionReady m

theorem ensure_scalar_of_stable (v : Value) (path : String)
    (h : parse_env_like_value (pyStr v) = v) :
    ensure_scalar v path = .ok (pyStr v) := by
  cases v with
  | str s => rfl
  | int n => rfl
  | float f => rfl
  | bool b => cases b <;> rfl
  | null =>
      rw [show parse_env_like_value (pyStr .null) = .str "None" from rfl] at h
      exact absurd h (fun hh => Value.noConfusion hh)
  | list l =>
      rw [show pyStr (.list l) = "" from rfl,
        show parse_env_like_value "" = .str "" from rfl] at h
      exact absurd h (fun hh => Value.noConfusion hh)
  | map m =>
      rw [show pyStr (.map m) = "" from rfl,
        show parse_env_like_value "" = .str "" from rfl] at h
      exact absurd h (fun hh => Value.noConfusion hh)

theorem dump_ini_section_ready (secName : String) (m : Entries)
    (h : iniSectionReady m) :
    FileSource_dump_ini_section secName m =
      .ok (m.map (fun p => (p.1, pyStr p.2))) := by
  obtain ⟨hnd, hall⟩ := h
  induction m with
  | nil => rfl
  | cons p rest ih =>
      obtain ⟨k, v⟩ := p
      obtain ⟨hstable, hlow, _, _, _⟩ := hall (k, v) (by simp)
      rw [FileSource_dump_ini_section,
        ensure_scalar_of_stable v _ hstable,
        ih ((List.nodup_cons.mp hnd).2)
          (fun q hq => hall q (List.mem_cons_of_mem _ hq))]
      show Except.ok ((pyLower k, pyStr v) ::
        List.map (fun p => (p.1, pyStr p.2)) rest) = _
      rw [show pyLower k = k from hlow]
      rfl

theorem load_ini_section_back (m : Entries)
    (h : ∀ p ∈ m, parse_env_like_value (pyStr p.2) = p.2) :
    (m.map (fun p => (p.1, pyStr p.2))).map
      (fun kv => (kv.1, parse_env_like_value kv.2)) = m := by
  induction m with
  | nil => rfl
  | cons p rest ih =>
      obtain ⟨k, v⟩ := p
      simp only [List.map_cons]
      rw [h (k, v) (by simp), ih (fun q hq => h q (List.mem_cons_of_mem _ hq))]

theorem ini_roundtrip_ready (data : Entries) (h : iniReady data) :
    Except.map FileSource_load_ini (FileSource_dump_ini data) = .ok data := by
  obtain ⟨hnd, hall⟩ := h
  induction data with
  | nil => rfl
  | cons q rest ih =>
      obtain ⟨sn, sv⟩ := q
      obtain ⟨_, _, m, hm, hready⟩ := hall (sn, sv) (by simp)
      subst hm
      rw [FileSource_dump_ini, dump_ini_section_ready sn m hready]
      have ihr := ih ((List.nodup_cons.mp hnd).2)
        (fun q hq => hall q (List.mem_cons_of_mem _ hq))
      rcases hrest : FileSource_dump_ini rest with e | doc
      · rw [hrest] at ihr
        exact absurd ihr (by simp [Except.map])
      · rw [hrest] at ihr
        have ihr' : FileSource_load_ini doc = rest := by
          simpa [Except.map] using ihr
        show Except.ok (FileSource_load_ini
          ((sn, List.map (fun p => (p.1, pyStr p.2)) m) :: doc)) = _
        rw [show FileSource_load_ini
            ((sn, List.map (fun p => (p.1, pyStr p.2)) m) :: doc) =
          (sn, Value.map ((List.map (fun p => (p.1, pyStr p.2)) m).map
            (fun kv => (kv.1, parse_env_like_value kv.2)))) ::
            FileSource_load_ini doc from rfl]
        rw [ihr', load_ini_section_back m (fun p hp => (hready.2 p hp).1)]

/-- Claim C4, corrected: the INI serializer stringifies every scalar with
`str()` and the INI loader pushes every stored value through the
coercion, so a string option whose text reads as a boolean comes back as
a boolean — `{"app": {"flag": "true"}}` dumps to `flag = true` and loads
as `{"app": {"flag": True}}`, losing the string type. -/
theorem C4_ini_roundtrip_counterexample :
    FileSource_dump_ini [("app", .map [("flag", .str "true")])] =
      .ok [("app", [("flag", "true")])] ∧
    FileSource_load_ini [("app", [("flag", "true")])] =
      [("app", .map [("flag", .bool true)])] ∧
    Value.bool true ≠ Value.str "true" ∧
    FileSource_dump_ini [("app", .map [("Key", .bool true)])] =
      .ok [("app", [("key", "True")])] := by
  exact ⟨rfl, rfl, fun h => Value.noConfusion h, rfl⟩

/-- Claim C4 as amended: serializing then parsing is the identity up to
Python `==` for JSON (keys come back sorted, which dict equality
ignores), YAML and TOML on every runtime-representable tree of supported
values; for INI the dump-then-load cycle reproduces the tree exactly
when every option key is lower-case and text-safe and every option value
is a scalar whose `str()` image is stripped and coerced back to itself —
booleans and integers always are (`parse_env_like_value "True" = True`,
`pyIntParse (str n) = n`), while string options that read as booleans or
numbers change type, as the counterexample shows. -/
theorem C4_roundtrip (t : Value) (data : Entries) (n : Int)
    (hwf : wfTree t = true) (hready : iniReady data) :
    pyEq (FileSource_json_roundtrip t) t = true ∧
    pyEq (FileSource_yaml_roundtrip t) t = true ∧
    pyEq (FileSource_toml_roundtrip t) t = true ∧
    Except.map FileSource_load_ini (FileSource_dump_ini data) = .ok data ∧
    parse_env_like_value (pyStr (.bool true)) = .bool true ∧
    parse_env_like_value (pyStr (.bool false)) = .bool false ∧
    parse_env_like_value (pyStr (.int n)) = .int n := by
  refine ⟨pyEq_sortKeysRec t hwf, pyEq_refl t hwf, pyEq_refl t hwf,
    ini_roundtrip_ready data hready, rfl, rfl, ?_⟩
  rw [show pyStr (.int n) = pyIntStr n from rfl]
  exact parse_env_int n

/-- Witness for C4 at a concrete JSON tree and a concrete INI tree. -/
theorem C4_roundtrip_witness :
    wfTree (.map [("b", Value.int 1),
      ("a", .map [("y", Value.null), ("x", Value.str "v")])]) = true ∧
    pyEq (FileSource_json_roundtrip (.map [("b", Value.int 1),
      ("a", .map [("y", Value.null), ("x", Value.str "v")])]))
      (.map [("b", Value.int 1),
      ("a", .map [("y", Value.null), ("x", Value.str "v")])]) = true ∧
    iniReady [("app", .map [("debug", Value.bool false),
      ("workers", Value.int 4), ("host", Value.str "db.local")])] ∧
    Except.map FileSource_load_ini (FileSource_dump_ini
      [("app", .map [("debug", Value.bool false),
        ("workers", Value.int 4), ("host", Value.str "db.local")])]) =
      .ok [("app", .map [("debug", Value.bool false),
        ("workers", Value.int 4), ("host", Value.str "db.local")])] ∧
    parse_env_like_value (pyStr (.int 42)) = .int 42 := by
  have hwf : wfTree (.map [("b", Value.int 1),
      ("a", .map [("y", Value.null), ("x", Value.str "v")])]) = true := by
    decide
  have hint4 : pyIntStr 4 = "4" := by
    simp [pyIntStr, natDigits, digitChar]
  have hready : iniReady [("app", .map [("debug", Value.bool false),
      ("workers", Value.int 4), ("host", Value.str "db.local")])] := by
    refine ⟨by decide, ?_⟩
    intro q hq
    simp only [List.mem_singleton] at hq
    subst hq
    refine ⟨by decide, by decide,
      [("debug", Value.bool false), ("workers", Value.int 4),
        ("host", Value.str "db.local")], rfl, by decide, ?_⟩
    intro p hp
    simp only [List.mem_cons, List.not_mem_nil, or_false] at hp
    rcases hp with rfl | rfl | rfl
    · exact ⟨rfl, rfl, rfl, rfl, rfl⟩
    · refine ⟨parse_env_int 4, rfl, pyIntStr_strip 4, rfl, ?_⟩
      rw [show pyStr (Value.int 4) = pyIntStr 4 from rfl, hint4]
      decide
    · exact ⟨rfl, rfl, rfl, rfl, rfl⟩
  have h := C4_roundtrip
    (.map [("b", Value.int 1),
      ("a", .map [("y", Value.null), ("x", Value.str "v")])])
    [("app", .map [("debug", Value.bool false),
      ("workers", Value.int 4), ("host", Value.str "db.local")])]
    42 hwf hready
  exact ⟨hwf, h.1, hready, h.2.2.2.1, h.2.2.2.2.2.2⟩

/-! ### Aliasing (claim C1): a heap model of CPython dicts

`Config.__init__` and both ends of `DictSource` call `dict(data)`, a
one-level copy: the new dict object holds the same slot values, and a
slot holding a reference to a nested dict still references that same
object. The heap below makes this observable: dict objects live at
addresses, `dict(...)` allocates a fresh address with the same slots,
and in-place mutation rewrites one address. -/

abbrev Addr := Nat

/-- A value stored in one dict slot: a scalar, or a reference to another
dict object on the heap. -/
inductive PVal where
  | int : Int → PVal
  | str : String → PVal
  | bool : Bool → PVal
  | none : PVal
  | ref : Addr → PVal
deriving Repr, DecidableEq

/-- One dict object: its slots in insertion order. -/
abbrev PObj := List (String × PVal)

/-- The heap: dict objects indexed by address. -/
abbrev Heap := List PObj

/-- The object at an address (a dangling address reads as empty). -/
def heapGet (h : Heap) (a : Addr) : PObj := h.getD a []

/-- Python `d[k] = v` on a slot list. -/
def setKeyP : PObj → String → PVal → PObj
  | [], k, v => [(k, v)]
  | (k', v') :: rest, k, v =>
      if k' = k then (k, v) :: rest else (k', v') :: setKeyP rest k v

/-- In-place `d[k] = v` on the dict object at `a`. -/
def setInObj (h : Heap) (a : Addr) (k : String) (v : PVal) : Heap :=
  h.set a (setKeyP (heapGet h a) k v)

/-- `dict(data)`: allocate a fresh object with the same slots — a shallow
copy, nested dict references are copied as references. -/
def dictCopy (h : Heap) (a : Addr) : Addr × Heap := (h.length, h ++ [heapGet h a])

/-- `Config.__init__`: `self._data = dict(data)`. -/
def Config_init (h : Heap) (dataAddr : Addr) : Addr × Heap := dictCopy h dataAddr

/-- `DictSource.__init__`: `self._data = dict(data)`. -/
def DictSource_init (h : Heap) (dataAddr : Addr) : Addr × Heap := dictCopy h dataAddr

/-- `DictSource.load`: `return dict(self._data)`. -/
def DictSource_load (h : Heap) (storedAddr : Addr) : Addr × Heap := dictCopy h storedAddr

mutual

/-- Observe one slot value as a configuration tree, chasing references
with fuel (the trees of interest are finite, so some fuel suffices). -/
def resolveV (h : Heap) : Nat → PVal → Option Value
  | _, .int n => some (.int n)
  | _, .str s => some (.str s)
  | _, .bool b => some (.bool b)
  | _, .none => some .null
  | 0, .ref _ => Option.none
  | fuel + 1, .ref a => (resolveObj h fuel (heapGet h a)).map Value.map
termination_by fuel v => (fuel, sizeOf v)

/-- Observe a dict object as a tree. -/
def resolveObj (h : Heap) : Nat → PObj → Option Entries
  | _, [] => some []
  | fuel, (k, v) :: rest => do
      let t ← resolveV h fuel v
      let r ← resolveObj h fuel rest
      pure ((k, t) :: r)
termination_by fuel o => (fuel, sizeOf o)

end

mutual

/-- The heap addresses a slot value can read through, with fuel. -/
def reachV (h : Heap) : Nat → PVal → List Addr
  | _, .int _ => []
  | _, .str _ => []
  | _, .bool _ => []
  | _, .none => []
  | 0, .ref a => [a]
  | fuel + 1, .ref a => a :: reachObj h fuel (heapGet h a)
termination_by fuel v => (fuel, sizeOf v)

/-- The heap addresses a dict object can read through. -/
def reachObj (h : Heap) : Nat → PObj → List Addr
  | _, [] => []
  | fuel, (_, v) :: rest => reachV h fuel v ++ reachObj h fuel rest
termination_by fuel o => (fuel, sizeOf o)

end

/-- The tree the Configuration exposes: item, attribute, `get` and
`to_dict` access all read `self._data`, the object at the Config's
address. -/
def configView (h : Heap) (fuel : Nat) (a : Addr) : Option Entries :=
  resolveObj h fuel (heapGet h a)

theorem heapGet_set_ne (h : Heap) (a b : Addr) (o : PObj) (hab : a ≠ b) :
    heapGet (h.set a o) b = heapGet h b := by
  simp [heapGet, List.getD_eq_getElem?_getD, List.getElem?_set_ne hab]

theorem heapGet_setInObj_ne (h : Heap) (a b : Addr) (k : String) (v : PVal)
    (hab : a ≠ b) : heapGet (setInObj h a k v) b = heapGet h b :=
  heapGet_set_ne h a b _ hab

theorem heapGet_append_new (h : Heap) (o : PObj) :
    heapGet (h ++ [o]) h.length = o := by
  simp [heapGet, List.getD_eq_getElem?_getD,
    List.getElem?_append_right (le_refl h.length)]

mutual

/-- Resolution reads only reachable addresses: two heaps agreeing there
resolve a slot value identically. -/
theorem resolveV_congr : ∀ (fuel : Nat) (v : PVal) (h1 h2 : Heap),
    (∀ a ∈ reachV h1 fuel v, heapGet h2 a = heapGet h1 a) →
    resolveV h2 fuel v = resolveV h1 fuel v
  | _, .int n, _, _, _ => by simp [resolveV]
  | _, .str s, _, _, _ => by simp [resolveV]
  | _, .bool b, _, _, _ => by simp [resolveV]
  | _, .none, _, _, _ => by simp [resolveV]
  | 0, .ref a, _, _, _ => by simp [resolveV]
  | fuel + 1, .ref a, h1, h2, hh => by
      have ha : heapGet h2 a = heapGet h1 a := hh a (by simp [reachV])
      rw [show resolveV h2 (fuel + 1) (.ref a) =
        (resolveObj h2 fuel (heapGet h2 a)).map Value.map from by simp [resolveV]]
      rw [show resolveV h1 (fuel + 1) (.ref a) =
        (resolveObj h1 fuel (heapGet h1 a)).map Value.map from by simp [resolveV]]
      rw [ha, resolveObj_congr fuel (heapGet h1 a) h1 h2
        (fun b hb => hh b (by simp [reachV, hb]))]
termination_by fuel v _ _ _ => (fuel, sizeOf v)

/-- The object-level direction of `resolveV_congr`. -/
theorem resolveObj_congr : ∀ (fuel : Nat) (o : PObj) (h1 h2 : Heap),
    (∀ a ∈ reachObj h1 fuel o, heapGet h2 a = heapGet h1 a) →
    resolveObj h2 fuel o = resolveObj h1 fuel o
  | _, [], _, _, _ => by simp [resolveObj]
  | fuel, (k, v) :: rest, h1, h2, hh => by
      rw [show resolveObj h2 fuel ((k, v) :: rest) = (do
          let t ← resolveV h2 fuel v
          let r ← resolveObj h2 fuel rest
          pure ((k, t) :: r)) from by simp [resolveObj]]
      rw [show resolveObj h1 fuel ((k, v) :: rest) = (do
          let t ← resolveV h1 fuel v
          let r ← resolveObj h1 fuel rest
          pure ((k, t) :: r)) from by simp [resolveObj]]
      rw [resolveV_congr fuel v h1 h2
          (fun a ha => hh a (by simp [reachObj, ha])),
        resolveObj_congr fuel rest h1 h2
          (fun a ha => hh a (by simp [reachObj, ha]))]
termination_by fuel o _ _ _ => (fuel, sizeOf o)

end

/-- Claim C1, corrected: the copies are shallow. At the concrete heap
where the caller's dict `d` (address 0) holds a nested dict (address 1),
constructing `Config(d)` copies only the top level (address 2 holds the
same reference to address 1), and the subsequent in-place mutation
`d["a"]["b"] = 2` of the nested dict changes the tree observed through
the Configuration. -/
theorem C1_nested_mutation_visible :
    Config_init [[("a", PVal.ref 1)], [("b", PVal.int 1)]] 0 =
      (2, [[("a", PVal.ref 1)], [("b", PVal.int 1)], [("a", PVal.ref 1)]]) ∧
    configView [[("a", PVal.ref 1)], [("b", PVal.int 1)], [("a", PVal.ref 1)]]
        2 2 = some [("a", .map [("b", .int 1)])] ∧
    setInObj [[("a", PVal.ref 1)], [("b", PVal.int 1)], [("a", PVal.ref 1)]]
        1 "b" (.int 2) =
      [[("a", PVal.ref 1)], [("b", PVal.int 2)], [("a", PVal.ref 1)]] ∧
    configView [[("a", PVal.ref 1)], [("b", PVal.int 2)], [("a", PVal.ref 1)]]
        2 2 = some [("a", .map [("b", .int 2)])] ∧
    some [("a", Value.map [("b", Value.int 1)])] ≠
      some [("a", Value.map [("b", Value.int 2)])] := by
  refine ⟨rfl, ?_, rfl, ?_, ?_⟩
  · simp [configView, resolveObj, resolveV, heapGet]
  · simp [configView, resolveObj, resolveV, heapGet]
  · simp

/-- Claim C1 as amended: `Config(d)` (and each `dict(...)` copy inside
`DictSource`) protects against top-level rebinding only — after the
copy, assigning a key of the caller's dict object `d` itself leaves the
tree observed through the Configuration unchanged, as long as `d` is not
reachable from its own entries (always true for the acyclic trees the
data model allows); nested sub-dicts stay shared, so mutating one is
visible, as the counterexample shows. -/
theorem C1_shallow_copy (h : Heap) (d : Addr) (fuel : Nat) (k : String)
    (v : PVal) (hd : d < h.length)
    (hreach : d ∉ reachObj (h ++ [heapGet h d]) fuel (heapGet h d)) :
    Config_init h d = (h.length, h ++ [heapGet h d]) ∧
    DictSource_init h d = (h.length, h ++ [heapGet h d]) ∧
    DictSource_load (h ++ [heapGet h d]) h.length =
      (h.length + 1, h ++ [heapGet h d] ++ [heapGet h d]) ∧
    configView (setInObj (h ++ [heapGet h d]) d k v) fuel h.length =
      configView (h ++ [heapGet h d]) fuel h.length := by
  have hc : heapGet (h ++ [heapGet h d]) h.length = heapGet h d :=
    heapGet_append_new h _
  refine ⟨rfl, rfl, ?_, ?_⟩
  · rw [DictSource_load, dictCopy, hc]
    simp
  · have hdc : d ≠ h.length := Nat.ne_of_lt hd
    rw [configView, configView,
      heapGet_setInObj_ne _ d h.length k v hdc, hc]
    apply resolveObj_congr
    intro a ha
    have had : d ≠ a := fun hh => hreach (hh ▸ ha)
    exact heapGet_setInObj_ne _ d a k v had

/-- Witness for C1 at the counterexample's heap: mutating the top-level
dict `d` at address 0 after `Config(d)` leaves the Configuration's view
unchanged. -/
theorem C1_shallow_copy_witness :
    configView
        (setInObj ([[("a", PVal.ref 1)], [("b", PVal.int 1)]] ++
          [heapGet [[("a", PVal.ref 1)], [("b", PVal.int 1)]] 0]) 0 "c" (.int 9))
        2 2 =
      configView ([[("a", PVal.ref 1)], [("b", PVal.int 1)]] ++
        [heapGet [[("a", PVal.ref 1)], [("b", PVal.int 1)]] 0]) 2 2 := by
  have h := C1_shallow_copy [[("a", PVal.ref 1)], [("b", PVal.int 1)]] 0 2 "c"
    (.int 9) (by decide)
    (by simp [reachObj, reachV, heapGet])
  exact h.2.2.2

end Confman
